import Mathlib

/-!
# Octree cube model of the vulkan-renderer (`src/vulkan-renderer/world/Cube.cpp`)

A shallow embedding of the octree decoder and of the triangulation of its leaves, and of
`BoundingBox::get_aabb` (`src/vulkan-renderer/gltf-model/bounding_box.cpp`).

* `float` coordinates are embedded as exact rationals (`ℚ`); every statement about
  coordinates is therefore a statement over exact arithmetic.
* `uint8_t` magnitudes are natural numbers; a value read from the stream is reduced
  modulo `256` where the source narrows it with `static_cast<uint8_t>`.
* `std::optional::value()` on an empty optional throws `std::bad_optional_access`;
  every function that can throw returns in `Except Err`.
-/

namespace Inexor

/-- Ways in which a call can end without returning a value. -/
inductive Err where
  /-- `std::optional::value()` was called on an empty optional (the exception
  `std::bad_optional_access`, never caught in `Cube.cpp`). -/
  | bad_optional_access
  /-- The write `*polygons = polygon` fell outside the buffer of `Cube::polygons`. -/
  | out_of_bounds
  /-- An `assert` of the source failed. -/
  | assertion_failed
  /-- The recursion budget of the model of `Cube::parse` was used up. -/
  | out_of_fuel
  deriving DecidableEq, Repr

/-- The call `o.value()` of `std::optional`. -/
def value {α : Type} : Option α → Except Err α
  | some a => .ok a
  | none => .error .bad_optional_access

/-! ## Bit reader -/

/-- Modelled from the spec: the class `BitStream` (its header and implementation are
not part of the sources). Spec §4.1: a sequential consumer of a byte buffer;
`get(n_bits)` reads the next `n_bits` MSB-first, advances the cursor and returns
`none` if insufficient bits remain. The state kept here is the list of the bits
that have not been consumed yet. -/
structure BitStream where
  bits : List Bool
  deriving DecidableEq, Repr

/-- The eight bits of a byte, most significant first (spec §6: big-endian bit order). -/
def byteBits (b : Nat) : List Bool :=
  [b / 128 % 2 = 1, b / 64 % 2 = 1, b / 32 % 2 = 1, b / 16 % 2 = 1,
   b / 8 % 2 = 1, b / 4 % 2 = 1, b / 2 % 2 = 1, b % 2 = 1]

/-- Modelled from the spec: the constructor `BitStream(data.data(), data.size())`
over a buffer of `unsigned char`. -/
def BitStream.ofBytes (data : List Nat) : BitStream :=
  ⟨data.flatMap byteBits⟩

/-- The unsigned number written by a bit field, most significant bit first. -/
def bitsValue (bs : List Bool) : Nat :=
  bs.foldl (fun acc b => 2 * acc + (if b then 1 else 0)) 0

/-- Modelled from the spec: `BitStream::get(n_bits) -> optional<uint64>` (spec §4.1). -/
def BitStream.get (s : BitStream) (n : Nat) : Option (Nat × BitStream) :=
  if n ≤ s.bits.length then some (bitsValue (s.bits.take n), ⟨s.bits.drop n⟩) else none

/-- Number of bits left in the stream. -/
def BitStream.remaining (s : BitStream) : Nat := s.bits.length

/-! ## Indentation -/

/-- The class `Indentation`: three `uint8_t` magnitudes. -/
structure Indentation where
  _x : Nat
  _y : Nat
  _z : Nat
  deriving DecidableEq, Repr

/-- The type `glm::tvec3<uint8_t>`. -/
structure U8Vec3 where
  x : Nat
  y : Nat
  z : Nat
  deriving DecidableEq, Repr

/-- `Indentation::vec()` (Cube.cpp 75-77). -/
def Indentation.vec (i : Indentation) : U8Vec3 := ⟨i._x, i._y, i._z⟩

/-- Modelled from the spec: the default member initialisers of the absent
`Cube.hpp`, used by `Indentation::Indentation() = default` (Cube.cpp 59); spec §3 gives
every magnitude the default 0. -/
def Indentation.default : Indentation := ⟨0, 0, 0⟩

/-- `Indentation::Indentation(uint8_t x, uint8_t y, uint8_t z)` (Cube.cpp 61-65). -/
def Indentation.ofMagnitudes (x y z : Nat) : Indentation := ⟨x, y, z⟩

/-- `Indentation::set(optional<uint8_t> x, optional<uint8_t> y, optional<uint8_t> z)`
(Cube.cpp 18-29). The arguments are values of `uint8_t`, that is, below 256. The call
`_change()` at the end fires the signal `on_change` (Cube.cpp 79-81); no slot is
connected to it anywhere in `Cube.cpp` (the `connect` of line 94 is commented out), so
the call changes nothing but the magnitudes. -/
def Indentation.set (i : Indentation) (x y z : Option Nat) : Indentation :=
  let i := match x with
    | some v => { i with _x := v }
    | none => i
  let i := match y with
    | some v => { i with _y := v }
    | none => i
  let i := match z with
    | some v => { i with _z := v }
    | none => i
  i

/-- `Indentation::set_x` (Cube.cpp 31-34). -/
def Indentation.set_x (i : Indentation) (x : Nat) : Indentation := { i with _x := x }

/-- `Indentation::set_y` (Cube.cpp 36-39). -/
def Indentation.set_y (i : Indentation) (y : Nat) : Indentation := { i with _y := y }

/-- `Indentation::set_z` (Cube.cpp 41-44). -/
def Indentation.set_z (i : Indentation) (z : Nat) : Indentation := { i with _z := z }

/-- `Indentation::x()`, `y()`, `z()` (Cube.cpp 46-48). -/
def Indentation.x (i : Indentation) : Nat := i._x

/-- `Indentation::y()`. -/
def Indentation.y (i : Indentation) : Nat := i._y

/-- `Indentation::z()`. -/
def Indentation.z (i : Indentation) : Nat := i._z

/-- `Indentation::_parse_one` (Cube.cpp 67-73). -/
def Indentation._parse_one (stream : BitStream) : Except Err (Nat × BitStream) := do
  let (indented, s1) ← value (stream.get 1)
  if indented ≠ 0 then
    let (m, s2) ← value (s1.get 3)
    pure (m % 256, s2)
  else
    pure (0, s1)

/-- The order in which the three arguments of the constructor call in
`Indentation::parse` are evaluated. The calls are the arguments of one
parenthesised constructor call, `Indentation(_parse_one(stream), _parse_one(stream),
_parse_one(stream))`, and C++ does not fix the order in which the arguments of a
call are evaluated; `xyz` is the order in which they are written, `zyx` the
right-to-left order. Each name lists the arguments from the one evaluated first. -/
inductive ArgOrder where
  | xyz | xzy | yxz | yzx | zxy | zyx
  deriving DecidableEq, Repr

/-- `Indentation::parse` (Cube.cpp 50-57), for a given evaluation order of the three
constructor arguments. -/
def Indentation.parse (order : ArgOrder) (stream : BitStream) :
    Except Err (Indentation × BitStream) := do
  let (a, s1) ← Indentation._parse_one stream
  let (b, s2) ← Indentation._parse_one s1
  let (c, s3) ← Indentation._parse_one s2
  match order with
  | .xyz => pure (⟨a, b, c⟩, s3)
  | .xzy => pure (⟨a, c, b⟩, s3)
  | .yxz => pure (⟨b, a, c⟩, s3)
  | .yzx => pure (⟨c, a, b⟩, s3)
  | .zxy => pure (⟨b, c, a⟩, s3)
  | .zyx => pure (⟨c, b, a⟩, s3)

/-! ## Loops over the eight corners / octants -/

/-- Eight calls `f 0`, ..., `f 7` made one after the other on a threaded state (the
stream, or the output pointer), as the loops over `array<_, 8>` and the braced list
of eight `Cube::parse` calls do; the eight results are collected in index order.
The first call that throws ends the whole sequence. -/
def seq8 {σ α : Type} (f : Fin 8 → σ → Except Err (α × σ)) (s : σ) :
    Except Err ((Fin 8 → α) × σ) := do
  let (a0, s) ← f 0 s
  let (a1, s) ← f 1 s
  let (a2, s) ← f 2 s
  let (a3, s) ← f 3 s
  let (a4, s) ← f 4 s
  let (a5, s) ← f 5 s
  let (a6, s) ← f 6 s
  let (a7, s) ← f 7 s
  pure (![a0, a1, a2, a3, a4, a5, a6, a7], s)

/-! ## Cube -/

/-- Modelled from the spec: the enumeration `CubeType` of the absent `Cube.hpp`, with
the ordinals `0 → Empty, 1 → Full, 2 → Indented, 3 → Octants` of spec §4.3. -/
inductive CubeType where
  | EMPTY | FULL | INDENTED | OCTANTS
  deriving DecidableEq, Repr

/-- The cast `static_cast<CubeType>(n)` of Cube.cpp 115. A value that is no
enumerator reaches `assert(type == CubeType::OCTANTS)` (Cube.cpp 128). -/
def CubeType.cast : Nat → Except Err CubeType
  | 0 => .ok .EMPTY
  | 1 => .ok .FULL
  | 2 => .ok .INDENTED
  | 3 => .ok .OCTANTS
  | _ => .error .assertion_failed

/-- The type `glm::vec3`, over exact rationals. -/
structure Vec3 where
  x : ℚ
  y : ℚ
  z : ℚ
  deriving DecidableEq

/-- A triangle `array<glm::vec3, 3>`. -/
abbrev Polygon := Fin 3 → Vec3

/-- The value-initialised triangle that `vector::resize` fills in. -/
def Polygon.zero : Polygon := fun _ => ⟨0, 0, 0⟩

/-- The data members of a `Cube` other than `octants`. -/
structure CubeData where
  _type : CubeType
  _size : ℚ
  _position : Vec3
  indentations : Option (Fin 8 → Indentation)
  _polygons_cache : Fin 12 → Polygon
  _valid_cache : Bool

/-- The class `Cube`. The member `optional<array<shared_ptr<Cube>, 8>> octants` is
either empty (`noOctants`) or holds eight children (`withOctants`); children are
owned, non-null and not shared, which is what `Cube::parse` builds with
`make_shared`. -/
inductive Cube where
  | noOctants (d : CubeData)
  | withOctants (d : CubeData) (octants : Fin 8 → Cube)

namespace Cube

/-- The data members of the node itself. -/
def data : Cube → CubeData
  | noOctants d => d
  | withOctants d _ => d

/-- The member `octants`. -/
def octants : Cube → Option (Fin 8 → Cube)
  | noOctants _ => none
  | withOctants _ o => some o

/-- The same node with its own data members replaced. -/
def withData : Cube → CubeData → Cube
  | noOctants _, d => noOctants d
  | withOctants _ o, d => withOctants d o

/-- `Cube::type()`. -/
def type (c : Cube) : CubeType := c.data._type

/-- Modelled from the spec: the initial values of `_polygons_cache` and `_valid_cache`
declared in the absent `Cube.hpp`; spec §4.4 has the triangles computed "the first
time", so a new node starts with an invalid cache. -/
def freshData (type : CubeType) (size : ℚ) (position : Vec3)
    (indentations : Option (Fin 8 → Indentation)) : CubeData :=
  ⟨type, size, position, indentations, fun _ => Polygon.zero, false⟩

/-- `Cube::Cube(CubeType, float, const glm::vec3 &)` (Cube.cpp 83-87). -/
def ofType (type : CubeType) (size : ℚ) (position : Vec3) : Cube :=
  noOctants (freshData type size position none)

/-- `Cube::Cube(array<Indentation, 8> &, float, const glm::vec3 &)` (Cube.cpp 89-96). -/
def ofIndentations (indentations : Fin 8 → Indentation) (size : ℚ) (position : Vec3) :
    Cube :=
  noOctants (freshData .INDENTED size position (some indentations))

/-- `Cube::Cube(array<shared_ptr<Cube>, 8> &, float, const glm::vec3 &)`
(Cube.cpp 98-102). -/
def ofOctants (octants : Fin 8 → Cube) (size : ℚ) (position : Vec3) : Cube :=
  withOctants (freshData .OCTANTS size position none) octants

/-! ### Parsing -/

/-- The eight origins of Cube.cpp 138-145, in the order of the braced list. -/
def octantPositions (size : ℚ) (position : Vec3) : Fin 8 → Vec3 :=
  let half := size / 2
  let x := position.x
  let y := position.y
  let z := position.z
  let xh := x + half
  let yh := y + half
  let zh := z + half
  ![⟨x, y, z⟩, ⟨x, y, zh⟩, ⟨x, yh, z⟩, ⟨x, yh, zh⟩,
    ⟨xh, y, z⟩, ⟨xh, y, zh⟩, ⟨xh, yh, z⟩, ⟨xh, yh, zh⟩]

/-- `Cube::parse(BitStream &, float, const glm::vec3 &)` (Cube.cpp 114-148) with a
budget for the depth of the recursion. `order` is the evaluation order of the
arguments in `Indentation::parse`. -/
def parseFuel (order : ArgOrder) :
    Nat → BitStream → ℚ → Vec3 → Except Err (Cube × BitStream)
  | 0, _, _, _ => .error .out_of_fuel
  | fuel + 1, stream, size, position => do
    let (tag, s) ← value (stream.get 2)
    let type ← CubeType.cast tag
    if type = .EMPTY ∨ type = .FULL then
      pure (ofType type size position, s)
    else if type = .INDENTED then
      let (indentations, s) ← seq8 (fun _ st => Indentation.parse order st) s
      pure (ofIndentations indentations size position, s)
    else
      let half := size / 2
      let (octants, s) ←
        seq8 (fun i st => parseFuel order fuel st half (octantPositions size position i)) s
      pure (ofOctants octants size position, s)

/-- `Cube::parse(BitStream &, float, const glm::vec3 &)`. Every call reads the two
bits of the tag before it recurses, so a budget above the number of remaining bits
is never used up (`parseFuel_fuel_irrelevant`). -/
def parse (order : ArgOrder) (stream : BitStream) (size : ℚ) (position : Vec3) :
    Except Err (Cube × BitStream) :=
  parseFuel order (stream.remaining + 1) stream size position

/-- `DEFAULT_CUBE_SIZE` (Cube.cpp 12). -/
def DEFAULT_CUBE_SIZE : ℚ := 1

/-- `DEFAULT_CUBE_POSITION` (Cube.cpp 16). -/
def DEFAULT_CUBE_POSITION : Vec3 := ⟨0, 0, 0⟩

/-- `Cube::parse(vector<unsigned char> &)` (Cube.cpp 105-112). -/
def parseBytes (order : ArgOrder) (data : List Nat) : Except Err Cube := do
  let (c, _) ← parse order (BitStream.ofBytes data) DEFAULT_CUBE_SIZE DEFAULT_CUBE_POSITION
  pure c

/-! ### Geometry -/

/-- `MAX_INDENTATION` (Cube.cpp 8). -/
def MAX_INDENTATION : Nat := 8

/-- `Cube::_indentation_levels` (Cube.cpp 337-344). -/
def _indentation_levels (c : Cube) : Except Err (Fin 8 → U8Vec3) := do
  let indents ← value c.data.indentations
  pure (fun i => (indents i).vec)

/-- `Cube::_vertices` (Cube.cpp 288-323). -/
def _vertices (c : Cube) : Except Err (Fin 8 → Vec3) := do
  if ¬ (c.data._type = .FULL ∨ c.data._type = .INDENTED) then
    throw .assertion_failed
  let p := c.data._position
  let f : Vec3 := ⟨p.x + c.data._size, p.y + c.data._size, p.z + c.data._size⟩
  if c.data._type = .FULL then
    pure ![⟨p.x, p.y, p.z⟩, ⟨p.x, p.y, f.z⟩, ⟨p.x, f.y, p.z⟩, ⟨p.x, f.y, f.z⟩,
           ⟨f.x, p.y, p.z⟩, ⟨f.x, p.y, f.z⟩, ⟨f.x, f.y, p.z⟩, ⟨f.x, f.y, f.z⟩]
  else
    let step : ℚ := c.data._size / (MAX_INDENTATION : ℚ)
    let in_ ← c._indentation_levels
    pure ![
      ⟨p.x + step * (in_ 0).x, p.y + step * (in_ 0).y, p.z + step * (in_ 0).z⟩,
      ⟨p.x + step * (in_ 1).x, p.y + step * (in_ 1).y, f.z - step * (in_ 1).z⟩,
      ⟨p.x + step * (in_ 2).x, f.y - step * (in_ 2).y, p.z + step * (in_ 2).z⟩,
      ⟨p.x + step * (in_ 3).x, f.y - step * (in_ 3).y, f.z - step * (in_ 3).z⟩,
      ⟨f.x - step * (in_ 4).x, p.y + step * (in_ 4).y, p.z + step * (in_ 4).z⟩,
      ⟨f.x - step * (in_ 5).x, p.y + step * (in_ 5).y, f.z - step * (in_ 5).z⟩,
      ⟨f.x - step * (in_ 6).x, f.y - step * (in_ 6).y, p.z + step * (in_ 6).z⟩,
      ⟨f.x - step * (in_ 7).x, f.y - step * (in_ 7).y, f.z - step * (in_ 7).z⟩]

/-- `Cube::_full_polygons(array<glm::vec3, 8> &v)` (Cube.cpp 212-232). The function
only moves the entries of `v` around, so it is stated for any entry type; on
`v = id` it gives the table of vertex indices. -/
def _full_polygons_of {α : Type} (v : Fin 8 → α) : Fin 12 → Fin 3 → α :=
  ![![v 0, v 2, v 1], -- x = 0
    ![v 1, v 2, v 3], -- x = 0
    ![v 4, v 5, v 6], -- x = 1
    ![v 5, v 7, v 6], -- x = 1
    ![v 0, v 1, v 4], -- y = 0
    ![v 1, v 5, v 4], -- y = 0
    ![v 2, v 6, v 3], -- y = 1
    ![v 3, v 6, v 7], -- y = 1
    ![v 0, v 4, v 2], -- z = 0
    ![v 2, v 4, v 6], -- z = 0
    ![v 1, v 3, v 5], -- z = 1
    ![v 3, v 7, v 5]] -- z = 1

/-- `Cube::_full_polygons()` (Cube.cpp 234-239). -/
def _full_polygons (c : Cube) : Except Err (Fin 12 → Polygon) := do
  if ¬ (c.data._type = .FULL) then
    throw .assertion_failed
  let v ← c._vertices
  pure (_full_polygons_of v)

/-- The body of `Cube::_indented_polygons` after `v` and `in` have been computed
(Cube.cpp 246-285). It only moves the entries of `v` around, so it is stated for any
entry type; on `v = id` it gives the chosen vertex indices. -/
def _indented_polygons_of {α : Type} (v : Fin 8 → α) (in_ : Fin 8 → U8Vec3) :
    Fin 12 → Fin 3 → α :=
  let vertices := _full_polygons_of v
  -- x = 0
  let vertices :=
    if (in_ 0).x + (in_ 3).x < (in_ 1).x + (in_ 2).x then
      Function.update (Function.update vertices 0 ![v 0, v 2, v 3]) 1 ![v 0, v 3, v 1]
    else vertices
  -- x = 1
  let vertices :=
    if (in_ 4).x + (in_ 7).x < (in_ 5).x + (in_ 6).x then
      Function.update (Function.update vertices 2 ![v 4, v 7, v 6]) 3 ![v 4, v 5, v 7]
    else vertices
  -- y = 0
  let vertices :=
    if (in_ 0).y + (in_ 5).y < (in_ 1).y + (in_ 4).y then
      Function.update (Function.update vertices 4 ![v 0, v 1, v 5]) 5 ![v 0, v 5, v 4]
    else vertices
  -- y = 1
  let vertices :=
    if (in_ 2).y + (in_ 7).y < (in_ 3).y + (in_ 6).y then
      Function.update (Function.update vertices 6 ![v 2, v 7, v 3]) 7 ![v 2, v 6, v 7]
    else vertices
  -- z = 0
  let vertices :=
    if (in_ 0).z + (in_ 6).z < (in_ 2).z + (in_ 4).z then
      Function.update (Function.update vertices 8 ![v 0, v 4, v 6]) 9 ![v 0, v 6, v 2]
    else vertices
  -- z = 1
  let vertices :=
    if (in_ 1).z + (in_ 7).z < (in_ 3).z + (in_ 6).z then
      Function.update (Function.update vertices 10 ![v 1, v 3, v 7]) 11 ![v 1, v 7, v 5]
    else vertices
  vertices

/-- `Cube::_indented_polygons()` (Cube.cpp 241-286). -/
def _indented_polygons (c : Cube) : Except Err (Fin 12 → Polygon) := do
  if ¬ (c.data._type = .INDENTED) then
    throw .assertion_failed
  let v ← c._vertices
  let in_ ← c._indentation_levels
  pure (_indented_polygons_of v in_)

/-- `Cube::leaves` (Cube.cpp 194-210). The counter is a `uint64_t`; a tree whose
nodes are not shared has fewer than `2^64 / 12` nodes in a 64-bit address space, so
the count is kept as a natural number. -/
def leaves : Cube → Except Err Nat
  | noOctants d =>
    match d._type with
    | .EMPTY => pure 0
    | .FULL => pure 1
    | .INDENTED => pure 1
    | .OCTANTS => throw .bad_optional_access
  | withOctants d o =>
    match d._type with
    | .EMPTY => pure 0
    | .FULL => pure 1
    | .INDENTED => pure 1
    | .OCTANTS => do
      let (_, i) ← seq8 (fun k (i : Nat) => do
        let n ← leaves (o k)
        pure ((), i + n)) 0
      pure i

/-- The output of `Cube::polygons`: the vector and the raw pointer
`array<glm::vec3, 3>* &polygons` into it, kept as an index. -/
structure PolyBuf where
  data : List Polygon
  ptr : Nat

/-- The two statements `*polygons = polygon; polygons++;` (Cube.cpp 189-190). -/
def PolyBuf.write (b : PolyBuf) (polygon : Polygon) : Except Err PolyBuf :=
  if b.ptr < b.data.length then
    pure ⟨b.data.set b.ptr polygon, b.ptr + 1⟩
  else
    throw .out_of_bounds

/-- The loop of Cube.cpp 188-191 over the twelve triangles of the cache. -/
def PolyBuf.writeAll (cache : Fin 12 → Polygon) (b : PolyBuf) : Except Err PolyBuf :=
  (List.finRange 12).foldlM (fun b i => b.write (cache i)) b

/-- The part of `Cube::_all_polygons` for a `FULL` or `INDENTED` node
(Cube.cpp 177-191): fill the cache when it is not valid, then copy it out. -/
def _emit_polygons (c : Cube) (b : PolyBuf) : Except Err (Cube × PolyBuf) := do
  let d ←
    if ¬ c.data._valid_cache then do
      let cache ← if c.data._type = .FULL then c._full_polygons else c._indented_polygons
      pure { c.data with _polygons_cache := cache, _valid_cache := true }
    else
      pure c.data
  let b ← b.writeAll d._polygons_cache
  pure (c.withData d, b)

/-- `Cube::_all_polygons` (Cube.cpp 166-192). The node is returned too, since the
call fills the caches of the leaves. -/
def _all_polygons : Cube → PolyBuf → Except Err (Cube × PolyBuf)
  | noOctants d, b =>
    if d._type = .EMPTY then pure (noOctants d, b)
    else if d._type = .OCTANTS then throw .bad_optional_access
    else _emit_polygons (noOctants d) b
  | withOctants d o, b =>
    if d._type = .EMPTY then pure (withOctants d o, b)
    else if d._type = .OCTANTS then do
      let (o, b) ← seq8 (fun k b => _all_polygons (o k) b) b
      pure (withOctants d o, b)
    else _emit_polygons (withOctants d o) b

/-- `Cube::polygons` (Cube.cpp 154-164); the node is returned with its caches. -/
def polygons (c : Cube) : Except Err (Cube × List Polygon) := do
  let n ← c.leaves
  let polygons := List.replicate (n * 12) Polygon.zero
  let (c, b) ← c._all_polygons ⟨polygons, 0⟩
  pure (c, b.data)

/-- `Cube::invalidate_cache` (Cube.cpp 325-327). -/
def invalidate_cache (c : Cube) : Cube :=
  c.withData { c.data with _valid_cache := false }

end Cube

/-! ## Auxiliary definitions for the statements -/

open Cube

/-- Replace the `ts.length` entries of `data` from index `p` on by `ts`. -/
def splice {β : Type} (data : List β) (p : Nat) (ts : List β) : List β :=
  data.take p ++ ts ++ data.drop (p + ts.length)

/-- Every `OCTANTS` node that the traversal reaches holds its eight children and every
`INDENTED` node its eight indentations. -/
def Cube.WellFormed : Cube → Prop
  | .noOctants d => d._type ≠ .OCTANTS ∧ (d._type = .INDENTED → d.indentations.isSome)
  | .withOctants d o =>
    (d._type = .INDENTED → d.indentations.isSome) ∧
      (d._type = .OCTANTS → ∀ i, Cube.WellFormed (o i))

/-- Sum of the first `k` entries. -/
def psum (n : Fin 8 → Nat) : Nat → Nat
  | 0 => 0
  | k + 1 => psum n k + (if h : k < 8 then n ⟨k, h⟩ else 0)

/-- Concatenation of the first `k` entries. -/
def pjoin {β : Type} (ts : Fin 8 → List β) : Nat → List β
  | 0 => []
  | k + 1 => pjoin ts k ++ (if h : k < 8 then ts ⟨k, h⟩ else [])

/-- A root with eight children: an empty one, six full ones and an indented one. -/
def sampleTree : Cube :=
  ofOctants ![ofType .EMPTY 1 ⟨0, 0, 0⟩, ofType .FULL 1 ⟨0, 0, 1⟩, ofType .FULL 1 ⟨0, 1, 0⟩,
    ofType .FULL 1 ⟨0, 1, 1⟩, ofType .FULL 1 ⟨1, 0, 0⟩, ofType .FULL 1 ⟨1, 0, 1⟩,
    ofType .FULL 1 ⟨1, 1, 0⟩, ofIndentations (fun _ => ⟨1, 2, 3⟩) 1 ⟨1, 1, 1⟩] 2 ⟨0, 0, 0⟩

/-- Indentations that are zero except for the z magnitude of corner 5, which is 1. -/
def indentZ5 : Fin 8 → Indentation :=
  ![⟨0, 0, 0⟩, ⟨0, 0, 0⟩, ⟨0, 0, 0⟩, ⟨0, 0, 0⟩, ⟨0, 0, 0⟩, ⟨0, 0, 1⟩, ⟨0, 0, 0⟩, ⟨0, 0, 0⟩]

/-- Indentations that are zero except for the z magnitude of corner 6, which is 1. -/
def indentZ6 : Fin 8 → Indentation :=
  ![⟨0, 0, 0⟩, ⟨0, 0, 0⟩, ⟨0, 0, 0⟩, ⟨0, 0, 0⟩, ⟨0, 0, 0⟩, ⟨0, 0, 0⟩, ⟨0, 0, 1⟩, ⟨0, 0, 0⟩]

/-- Indentations that are all zero. -/
def indentZero : Fin 8 → Indentation := fun _ => ⟨0, 0, 0⟩

/-- The bit of corner `i` on an axis (`0` is x, `1` is y, `2` is z): `i = 4*bx + 2*by + bz`. -/
def cornerBit (axis : Fin 3) (i : Fin 8) : Nat :=
  match axis with
  | 0 => i.val / 4 % 2
  | 1 => i.val / 2 % 2
  | 2 => i.val % 2

/-- The axis normal to face `f`, the faces being numbered x=0, x=1, y=0, y=1, z=0, z=1. -/
def faceAxis (f : Fin 6) : Fin 3 := ⟨f.val / 2, by omega⟩

/-- Corner `i` lies on face `f`. -/
def onFace (f : Fin 6) (i : Fin 8) : Prop := cornerBit (faceAxis f) i = f.val % 2

instance (f : Fin 6) (i : Fin 8) : Decidable (onFace f i) := by
  unfold onFace; infer_instance

/-- The slot of the `k`-th triangle of face `f` in the array of twelve. -/
def faceSlot (f : Fin 6) (k : Fin 2) : Fin 12 := ⟨2 * f.val + k.val, by omega⟩

/-- Corner `i` is one of the three corners of the triangle `t`. -/
def usesCorner (t : Fin 3 → Fin 8) (i : Fin 8) : Prop := ∃ j, t j = i

instance (t : Fin 3 → Fin 8) (i : Fin 8) : Decidable (usesCorner t i) := by
  unfold usesCorner; infer_instance

/-- The corners that both triangles of face `f` use in the table `tbl`. -/
def sharedCorners (tbl : Fin 12 → Fin 3 → Fin 8) (f : Fin 6) : Finset (Fin 8) :=
  Finset.univ.filter (fun i => usesCorner (tbl (faceSlot f 0)) i ∧ usesCorner (tbl (faceSlot f 1)) i)

/-- The six tests of Cube.cpp 251-281, by face. -/
def swapTest (in_ : Fin 8 → U8Vec3) : Fin 6 → Prop
  | 0 => (in_ 0).x + (in_ 3).x < (in_ 1).x + (in_ 2).x
  | 1 => (in_ 4).x + (in_ 7).x < (in_ 5).x + (in_ 6).x
  | 2 => (in_ 0).y + (in_ 5).y < (in_ 1).y + (in_ 4).y
  | 3 => (in_ 2).y + (in_ 7).y < (in_ 3).y + (in_ 6).y
  | 4 => (in_ 0).z + (in_ 6).z < (in_ 2).z + (in_ 4).z
  | 5 => (in_ 1).z + (in_ 7).z < (in_ 3).z + (in_ 6).z

instance (in_ : Fin 8 → U8Vec3) (f : Fin 6) : Decidable (swapTest in_ f) := by
  unfold swapTest; split <;> infer_instance

/-- The twelve triangles that Cube.cpp 252-283 assign when the test of a face holds. -/
def swappedPolygons {α : Type} (v : Fin 8 → α) : Fin 12 → Fin 3 → α :=
  ![![v 0, v 2, v 3], ![v 0, v 3, v 1], ![v 4, v 7, v 6], ![v 4, v 5, v 7],
    ![v 0, v 1, v 5], ![v 0, v 5, v 4], ![v 2, v 7, v 3], ![v 2, v 6, v 7],
    ![v 0, v 4, v 6], ![v 0, v 6, v 2], ![v 1, v 3, v 7], ![v 1, v 7, v 5]]

/-- The magnitude of an indentation level on an axis (`0` is x, `1` is y, `2` is z). -/
def U8Vec3.onAxis (m : U8Vec3) (axis : Fin 3) : Nat :=
  match axis with
  | 0 => m.x
  | 1 => m.y
  | 2 => m.z

/-- The three bits of a magnitude, most significant first. -/
def magnitudeBits (m : Nat) : List Bool := [m / 4 % 2 = 1, m / 2 % 2 = 1, m % 2 = 1]

/-- The wire form of one axis (spec §4.2, §6): a flag bit, followed by the three bits
of the magnitude when the flag is set. -/
def axisBits (flagged : Bool) (m : Nat) : List Bool :=
  if flagged then true :: magnitudeBits m else [false]

/-- The wire form of an indentation: the axes x, y, z one after the other. -/
def indentationBits (fx fy fz : Bool) (x y z : Nat) : List Bool :=
  axisBits fx x ++ (axisBits fy y ++ axisBits fz z)

/-- Number of flags that are set. -/
def flagCount (fx fy fz : Bool) : Nat := fx.toNat + fy.toNat + fz.toNat

/-- The bits `1 101 0 1 011`: x = 5 flagged, y not flagged, z = 3 flagged. -/
def bits_5_0_3 : List Bool := [true, true, false, true, false, true, false, true, true]

/-- The corner with the axis bits `(bx, by, bz)`: index `4*bx + 2*by + bz`. -/
def cornerIndex (bx bY bz : Fin 2) : Fin 8 := ⟨4 * bx.val + 2 * bY.val + bz.val, by omega⟩

/-- The two bits `01` of the tag of a full cube, followed by a bit that is not read. -/
def bits_full : List Bool := [false, true, true]

/-- The stream `s` followed by the bits `t`. -/
def BitStream.append (s : BitStream) (t : List Bool) : BitStream := ⟨s.bits ++ t⟩

/-- The buffer `10 000 000 ... 000 000000`: an indented cube with eight indentations
without a flagged axis (26 bits), padded to four bytes. -/
def bytes_indented : List Nat := [128, 0, 0, 0]

/-- The buffer `11 00 00 00 00 00 00 00 00 000000`: a cube with eight empty octants
(18 bits), padded to three bytes. -/
def bytes_octants : List Nat := [192, 0, 0]

/-- The two corners of the diagonal that the two triangles of `_full_polygons` share,
by face. -/
def defaultDiagonal : Fin 6 → Fin 8 × Fin 8 :=
  ![(1, 2), (5, 6), (1, 4), (3, 6), (2, 4), (3, 5)]

/-- The two corners of the other diagonal of each face. -/
def otherDiagonal : Fin 6 → Fin 8 × Fin 8 :=
  ![(0, 3), (4, 7), (0, 5), (2, 7), (0, 6), (1, 7)]

/-- The sum of the magnitudes of the two corners of a diagonal on the axis normal to
face `f`. -/
def diagonalSum (in_ : Fin 8 → U8Vec3) (f : Fin 6) (d : Fin 8 × Fin 8) : Nat :=
  (in_ d.1).onAxis (faceAxis f) + (in_ d.2).onAxis (faceAxis f)

/-- All three magnitudes of an indentation are at most 7. -/
def Indentation.InRange (i : Indentation) : Prop := i._x ≤ 7 ∧ i._y ≤ 7 ∧ i._z ≤ 7

instance (i : Indentation) : Decidable i.InRange := by
  unfold Indentation.InRange; infer_instance

/-- A point lies in the cube with origin `p` and edge length `S`. -/
def Vec3.InCube (q p : Vec3) (S : ℚ) : Prop :=
  p.x ≤ q.x ∧ q.x ≤ p.x + S ∧ p.y ≤ q.y ∧ q.y ≤ p.y + S ∧ p.z ≤ q.z ∧ q.z ≤ p.z + S

/-- The determinant of the matrix with the rows `a`, `b`, `d`. -/
def det3 (a b d : Vec3) : ℚ :=
  a.x * (b.y * d.z - b.z * d.y) - a.y * (b.x * d.z - b.z * d.x)
    + a.z * (b.x * d.y - b.y * d.x)

/-- The difference of two points. -/
def Vec3.sub (a b : Vec3) : Vec3 := ⟨a.x - b.x, a.y - b.y, a.z - b.z⟩

/-- The signed volume of `(a - c, b - c, d - c)` for the triangle `t = (a, b, d)`. -/
def signedVolume (c : Vec3) (t : Fin 3 → Vec3) : ℚ :=
  det3 ((t 0).sub c) ((t 1).sub c) ((t 2).sub c)

/-- The corners of the cube with origin `p` and edge length `S`, as `_vertices` returns
them for a `FULL` cube. -/
def cornerPositions (S : ℚ) (p : Vec3) : Fin 8 → Vec3 :=
  ![⟨p.x, p.y, p.z⟩, ⟨p.x, p.y, p.z + S⟩, ⟨p.x, p.y + S, p.z⟩, ⟨p.x, p.y + S, p.z + S⟩,
    ⟨p.x + S, p.y, p.z⟩, ⟨p.x + S, p.y, p.z + S⟩, ⟨p.x + S, p.y + S, p.z⟩,
    ⟨p.x + S, p.y + S, p.z + S⟩]

/-- The centre of the cube with origin `p` and edge length `S`. -/
def cubeCentre (S : ℚ) (p : Vec3) : Vec3 := ⟨p.x + S / 2, p.y + S / 2, p.z + S / 2⟩

/-- Eight times the signed volume, with respect to the centre, of the triangle with the
corners `a`, `b`, `d` of the unit cube: the determinant of the rows `2 * bits - 1`. -/
def cornerVolume (a b d : Fin 8) : ℤ :=
  let r : Fin 8 → Fin 3 → ℤ := fun i axis => 2 * (cornerBit axis i : ℤ) - 1
  r a 0 * (r b 1 * r d 2 - r b 2 * r d 1) - r a 1 * (r b 0 * r d 2 - r b 2 * r d 0)
    + r a 2 * (r b 0 * r d 1 - r b 1 * r d 0)

/-- The type `glm::vec4`, over exact rationals. -/
structure Vec4 where
  x : ℚ
  y : ℚ
  z : ℚ
  w : ℚ
/-- The conversion `glm::vec3(v)` of a `glm::vec4`: its first three components. -/
def Vec4.toVec3 (v : Vec4) : Vec3 := ⟨v.x, v.y, v.z⟩

/-- The type `glm::mat4`: four columns `m[0]`, ..., `m[3]`. -/
abbrev Mat4 := Fin 4 → Vec4
/-- The product `v * s` of a `glm::vec3` and a scalar. -/
def Vec3.scale (v : Vec3) (s : ℚ) : Vec3 := ⟨v.x * s, v.y * s, v.z * s⟩

/-- The sum of two `glm::vec3` (the operator `+=`). -/
def Vec3.add (a b : Vec3) : Vec3 := ⟨a.x + b.x, a.y + b.y, a.z + b.z⟩

/-- `glm::min` on `glm::vec3`: the minimum component by component. -/
def Vec3.min (a b : Vec3) : Vec3 := ⟨Min.min a.x b.x, Min.min a.y b.y, Min.min a.z b.z⟩

/-- `glm::max` on `glm::vec3`: the maximum component by component. -/
def Vec3.max (a b : Vec3) : Vec3 := ⟨Max.max a.x b.x, Max.max a.y b.y, Max.max a.z b.z⟩

/-- Modelled from the spec: the class `BoundingBox` of the absent `bounding_box.hpp`,
a pair of corners `min`, `max` (spec §6), with the constructor of bounding_box.cpp 6. -/
structure BoundingBox where
  min : Vec3
  max : Vec3
/-- `BoundingBox::get_aabb` (bounding_box.cpp 8-32). -/
def BoundingBox.get_aabb (this : BoundingBox) (m : Mat4) : BoundingBox :=
  let min := (m 3).toVec3
  let max := min
  let right := (m 0).toVec3
  let v0 := right.scale this.min.x
  let v1 := right.scale this.max.x
  let min := min.add (v0.min v1)
  let max := max.add (v0.max v1)
  let up := (m 1).toVec3
  let v0 := up.scale this.min.y
  let v1 := up.scale this.max.y
  let min := min.add (v0.min v1)
  let max := max.add (v0.max v1)
  let back := (m 2).toVec3
  let v0 := back.scale this.min.z
  let v1 := back.scale this.max.z
  let min := min.add (v0.min v1)
  let max := max.add (v0.max v1)
  ⟨min, max⟩

/-- The corner of the box that takes, on each axis, the coordinate of `max` when the
bit of the axis is set and that of `min` otherwise. -/
def BoundingBox.corner (b : BoundingBox) (bx bY bz : Bool) : Vec3 :=
  ⟨if bx then b.max.x else b.min.x, if bY then b.max.y else b.min.y,
    if bz then b.max.z else b.min.z⟩

/-- The image `m[3] + c.x * m[0] + c.y * m[1] + c.z * m[2]` of a point `c`. -/
def Mat4.transform (m : Mat4) (c : Vec3) : Vec3 :=
  ⟨(m 3).x + c.x * (m 0).x + c.y * (m 1).x + c.z * (m 2).x,
   (m 3).y + c.x * (m 0).y + c.y * (m 1).y + c.z * (m 2).y,
   (m 3).z + c.x * (m 0).z + c.y * (m 1).z + c.z * (m 2).z⟩

/-- The component of a point on an axis (`0` is x, `1` is y, `2` is z). -/
def Vec3.component (v : Vec3) (axis : Fin 3) : ℚ :=
  match axis with
  | 0 => v.x
  | 1 => v.y
  | 2 => v.z

/-- In the node and in every node below it, the indentations are present exactly when
the type is `INDENTED` and the octants exactly when the type is `OCTANTS`. -/
def Cube.PayloadInv : Cube → Prop
  | .noOctants d => (d.indentations.isSome ↔ d._type = .INDENTED) ∧ d._type ≠ .OCTANTS
  | .withOctants d o =>
    (d.indentations.isSome ↔ d._type = .INDENTED) ∧ d._type = .OCTANTS ∧
      ∀ i, Cube.PayloadInv (o i)

/-- The number of nodes of a tree: the node itself and, when it holds octants, the nodes
of its eight children. -/
def Cube.nodes : Cube → Nat
  | .noOctants _ => 1
  | .withOctants _ o => 1 + ∑ i : Fin 8, Cube.nodes (o i)

/-- The stream `11 01 01 01 01 01 01 01 01 000000`: a cube with eight full octants
(18 bits), padded to three bytes. -/
def bytes_full_octants : List Nat := [213, 85, 64]

/-- The call of a setter `f` on `cube.indentations.value()[i]`. The setter fires
`on_change` of the indentation, to which the cube has connected nothing (the `connect`
of Cube.cpp 94 is commented out), so neither `_change` nor `invalidate_cache` of the
cube runs and the cache of the cube is left as it is. -/
def Cube.update_indentation (c : Cube) (i : Fin 8) (f : Indentation → Indentation) :
    Except Err Cube := do
  let ind ← value c.data.indentations
  pure (c.withData { c.data with indentations := some (Function.update ind i (f (ind i))) })

/-- The triangulation of the own vertices of a leaf: `_full_polygons()` for a `FULL`
node and `_indented_polygons()` for an `INDENTED` one, as a sequence of twelve
triangles (empty if the call throws). -/
def Cube.ownTriangles (c : Cube) : List Polygon :=
  match (if c.data._type = .FULL then c._full_polygons else c._indented_polygons) with
  | .ok P => List.ofFn P
  | .error _ => []

/-- What a leaf yields under the cache: the triangles of its cache when the cache is
valid, the triangulation of its own vertices otherwise. -/
def Cube.leafTriangles (c : Cube) : List Polygon :=
  if c.data._valid_cache then List.ofFn c.data._polygons_cache else c.ownTriangles

/-- The depth-first concatenation in child-index order: nothing for an `EMPTY` node,
`leaf` for a `FULL` or `INDENTED` node, and for an `OCTANTS` node the sequence of
child 0 followed by those of child 1, ..., child 7. -/
def Cube.depthFirst (leaf : Cube → List Polygon) : Cube → List Polygon
  | .noOctants d =>
    if d._type = .EMPTY ∨ d._type = .OCTANTS then [] else leaf (.noOctants d)
  | .withOctants d o =>
    if d._type = .EMPTY then []
    else if d._type = .OCTANTS then
      Cube.depthFirst leaf (o 0) ++ Cube.depthFirst leaf (o 1) ++ Cube.depthFirst leaf (o 2)
        ++ Cube.depthFirst leaf (o 3) ++ Cube.depthFirst leaf (o 4)
        ++ Cube.depthFirst leaf (o 5) ++ Cube.depthFirst leaf (o 6)
        ++ Cube.depthFirst leaf (o 7)
    else leaf (.withOctants d o)

/-- The `INDENTED` cube of size 1 at the origin in the state reached by `polygons()` on
all magnitudes 0 followed by `set_z(1)` on corner 5: the cache is valid and holds the
triangles of the undisplaced corners. -/
def staleCube : Cube :=
  .noOctants ⟨.INDENTED, 1, ⟨0, 0, 0⟩, some (Function.update indentZero 5 ((indentZero 5).set_z 1)),
    _indented_polygons_of (cornerPositions 1 ⟨0, 0, 0⟩) (fun i => (indentZero i).vec), true⟩

/-! ## Basic lemmas -/



@[simp] theorem bind_ok {α β : Type} (a : α) (f : α → Except Err β) :
    (Except.ok a >>= f) = f a := rfl

@[simp] theorem bind_error {α β : Type} (e : Err) (f : α → Except Err β) :
    ((Except.error e : Except Err α) >>= f) = Except.error e := rfl

@[simp] theorem pure_eq_ok {α : Type} (a : α) : (pure a : Except Err α) = Except.ok a := rfl

@[simp] theorem throw_eq_error {α : Type} (e : Err) :
    (throw e : Except Err α) = Except.error e := rfl

/-- Loop rule for `seq8`: an invariant that holds before the first call and is carried
by every call holds after the eighth, and every result satisfies its postcondition. -/
theorem seq8_spec {σ α : Type} (f : Fin 8 → σ → Except Err (α × σ)) (s0 : σ)
    (Inv : Nat → σ → Prop) (R : Fin 8 → α → Prop) (h0 : Inv 0 s0)
    (hstep : ∀ (i : Fin 8) (s : σ), Inv i.val s →
      ∃ a s', f i s = .ok (a, s') ∧ R i a ∧ Inv (i.val + 1) s') :
    ∃ arr s', seq8 f s0 = .ok (arr, s') ∧ (∀ i, R i (arr i)) ∧ Inv 8 s' := by
  obtain ⟨a0, s1, e0, r0, i1⟩ := hstep 0 s0 h0
  obtain ⟨a1, s2, e1, r1, i2⟩ := hstep 1 s1 i1
  obtain ⟨a2, s3, e2, r2, i3⟩ := hstep 2 s2 i2
  obtain ⟨a3, s4, e3, r3, i4⟩ := hstep 3 s3 i3
  obtain ⟨a4, s5, e4, r4, i5⟩ := hstep 4 s4 i4
  obtain ⟨a5, s6, e5, r5, i6⟩ := hstep 5 s5 i5
  obtain ⟨a6, s7, e6, r6, i7⟩ := hstep 6 s6 i6
  obtain ⟨a7, s8, e7, r7, i8⟩ := hstep 7 s7 i7
  refine ⟨![a0, a1, a2, a3, a4, a5, a6, a7], s8, ?_, ?_, i8⟩
  · simp [seq8, e0, e1, e2, e3, e4, e5, e6, e7]
  · intro i
    fin_cases i <;> assumption

theorem splice_length {β : Type} (data : List β) (p : Nat) (ts : List β)
    (h : p + ts.length ≤ data.length) : (splice data p ts).length = data.length := by
  simp [splice, List.length_take, List.length_drop]
  omega

theorem splice_splice {β : Type} (data : List β) (p : Nat) (a b : List β)
    (h : p + a.length + b.length ≤ data.length) :
    splice (splice data p a) (p + a.length) b = splice data p (a ++ b) := by
  have hp : (data.take p).length = p := by simp [List.length_take]; omega
  have h1 : (data.take p ++ a).length = p + a.length := by simp [hp]
  unfold splice
  rw [← h1, @List.take_append_of_le_length _ (data.take p ++ a) _ _ (Nat.le_refl _),
    List.take_length]
  rw [List.drop_append_eq_append_drop]
  simp [h1, List.drop_drop, hp]
  rw [List.drop_eq_nil_of_le (by rw [h1]; omega)]
  simp [Nat.add_assoc]

theorem splice_all {β : Type} (data ts : List β) (h : ts.length = data.length) :
    splice data 0 ts = ts := by
  simp [splice, h]

/-- Writing the triangles `ts` one after the other from the pointer on replaces the
slots under the pointer and moves the pointer by `ts.length`, provided they fit. -/
theorem write_foldlM (ts : List Polygon) :
    ∀ (data : List Polygon) (p : Nat), p + ts.length ≤ data.length →
      ts.foldlM (fun b t => PolyBuf.write b t) (⟨data, p⟩ : PolyBuf)
        = .ok ⟨splice data p ts, p + ts.length⟩ := by
  induction ts with
  | nil =>
    intro data p _
    simp [splice]
  | cons t ts ih =>
    intro data p h
    simp only [List.length_cons] at h
    have hp : p < data.length := by omega
    have hw : PolyBuf.write ⟨data, p⟩ t = .ok ⟨data.set p t, p + 1⟩ := by
      simp [PolyBuf.write, hp]
    simp only [List.foldlM_cons]
    rw [hw, bind_ok, ih (data.set p t) (p + 1) (by simp; omega)]
    have e : data.set p t = splice data p [t] := by
      simp [splice, List.set_eq_take_append_cons_drop, hp]
    have e2 : splice (splice data p [t]) (p + [t].length) ts = splice data p ([t] ++ ts) :=
      splice_splice data p [t] ts (by simp; omega)
    simp only [List.length_cons, List.length_nil, Nat.zero_add] at e2
    rw [e, e2]
    simp [Nat.add_assoc, Nat.add_comm 1]

theorem writeAll_eq (cache : Fin 12 → Polygon) (data : List Polygon) (p : Nat)
    (h : p + 12 ≤ data.length) :
    PolyBuf.writeAll cache ⟨data, p⟩ = .ok ⟨splice data p (List.ofFn cache), p + 12⟩ := by
  have := write_foldlM (List.ofFn cache) data p (by simpa using h)
  simp only [List.length_ofFn] at this
  rw [← this, PolyBuf.writeAll, List.ofFn_eq_map, List.foldlM_map]

theorem pjoin_length {β : Type} (ts : Fin 8 → List β) (n : Fin 8 → Nat)
    (h : ∀ i, (ts i).length = n i * 12) (k : Nat) :
    (pjoin ts k).length = psum n k * 12 := by
  induction k with
  | zero => simp [pjoin, psum]
  | succ k ih =>
    by_cases hk : k < 8
    · simp [pjoin, psum, hk, ih, h, Nat.add_mul]
    · simp [pjoin, psum, hk, ih]

theorem pjoin_length_mono {β : Type} (ts : Fin 8 → List β) (k m : Nat) (h : k ≤ m) :
    (pjoin ts k).length ≤ (pjoin ts m).length := by
  induction m with
  | zero =>
    have : k = 0 := by omega
    subst this
    exact Nat.le_refl _
  | succ m ih =>
    rcases Nat.lt_or_ge k (m + 1) with hlt | hge
    · have := ih (by omega)
      simp only [pjoin, List.length_append]
      omega
    · have : k = m + 1 := by omega
      subst this
      exact Nat.le_refl _

theorem splice_nil {β : Type} (data : List β) (p : Nat) : splice data p [] = data := by
  simp [splice]

theorem emit_polygons_ok (c : Cube)
    (hty : c.data._type = .FULL ∨ (c.data._type = .INDENTED ∧ c.data.indentations.isSome)) :
    ∃ d : CubeData, ∀ (data : List Polygon) (p : Nat), p + 12 ≤ data.length →
      c._emit_polygons ⟨data, p⟩
        = .ok (c.withData d, ⟨splice data p (List.ofFn d._polygons_cache), p + 12⟩) := by
  by_cases hv : c.data._valid_cache = true
  · refine ⟨c.data, fun data p h => ?_⟩
    simp [_emit_polygons, hv, writeAll_eq _ _ _ h]
  · rcases hty with hF | ⟨hI, hsome⟩
    · have hfull : ∃ cache, c._full_polygons = .ok cache := by
        simp [_full_polygons, _vertices, hF]
      obtain ⟨cache, hc⟩ := hfull
      refine ⟨{ c.data with _polygons_cache := cache, _valid_cache := true },
        fun data p h => ?_⟩
      simp [_emit_polygons, hv, hF, hc, writeAll_eq _ _ _ h]
    · obtain ⟨ind, hind⟩ := Option.isSome_iff_exists.mp hsome
      have hind' : ∃ cache, c._indented_polygons = .ok cache := by
        simp [_indented_polygons, _vertices, _indentation_levels, hI, hind, value]
      obtain ⟨cache, hc⟩ := hind'
      refine ⟨{ c.data with _polygons_cache := cache, _valid_cache := true },
        fun data p h => ?_⟩
      simp [_emit_polygons, hv, hI, hc, writeAll_eq _ _ _ h]

/-- The traversal of a well-formed tree: the number of leaves, the node with its caches
filled and the triangles written depend on the tree only; on every buffer with room
for them the triangles are written from the pointer on and the pointer ends right
behind them. -/
theorem all_polygons_spec (c : Cube) (hwf : c.WellFormed) :
    ∃ (n : Nat) (c' : Cube) (ts : List Polygon), c.leaves = .ok n ∧ ts.length = n * 12 ∧
      ∀ (data : List Polygon) (p : Nat), p + ts.length ≤ data.length →
        c._all_polygons ⟨data, p⟩ = .ok (c', ⟨splice data p ts, p + ts.length⟩) := by
  induction c with
  | noOctants d =>
    obtain ⟨hno, hind⟩ := hwf
    cases hty : d._type with
    | EMPTY =>
      exact ⟨0, .noOctants d, [], by simp [leaves, hty], rfl, fun data p _ => by
        simp [_all_polygons, hty, splice_nil]⟩
    | FULL =>
      obtain ⟨d', hd'⟩ := emit_polygons_ok (.noOctants d) (Or.inl hty)
      exact ⟨1, (Cube.noOctants d).withData d', List.ofFn d'._polygons_cache,
        by simp [leaves, hty], by simp, fun data p h => by
          simp only [List.length_ofFn] at h ⊢
          simp [_all_polygons, hty, hd' data p h]⟩
    | INDENTED =>
      obtain ⟨d', hd'⟩ := emit_polygons_ok (.noOctants d) (Or.inr ⟨hty, hind hty⟩)
      exact ⟨1, (Cube.noOctants d).withData d', List.ofFn d'._polygons_cache,
        by simp [leaves, hty], by simp, fun data p h => by
          simp only [List.length_ofFn] at h ⊢
          simp [_all_polygons, hty, hd' data p h]⟩
    | OCTANTS => exact absurd hty hno
  | withOctants d o ih =>
    obtain ⟨hind, hoct⟩ := hwf
    cases hty : d._type with
    | EMPTY =>
      exact ⟨0, .withOctants d o, [], by simp [leaves, hty], rfl, fun data p _ => by
        simp [_all_polygons, hty, splice_nil]⟩
    | FULL =>
      obtain ⟨d', hd'⟩ := emit_polygons_ok (.withOctants d o) (Or.inl hty)
      exact ⟨1, (Cube.withOctants d o).withData d', List.ofFn d'._polygons_cache,
        by simp [leaves, hty], by simp, fun data p h => by
          simp only [List.length_ofFn] at h ⊢
          simp [_all_polygons, hty, hd' data p h]⟩
    | INDENTED =>
      obtain ⟨d', hd'⟩ := emit_polygons_ok (.withOctants d o) (Or.inr ⟨hty, hind hty⟩)
      exact ⟨1, (Cube.withOctants d o).withData d', List.ofFn d'._polygons_cache,
        by simp [leaves, hty], by simp, fun data p h => by
          simp only [List.length_ofFn] at h ⊢
          simp [_all_polygons, hty, hd' data p h]⟩
    | OCTANTS =>
      choose n c' ts hl hlen hrun using fun i => ih i (hoct hty i)
      have hlenk := pjoin_length ts n hlen
      refine ⟨psum n 8, .withOctants d c', pjoin ts 8, ?_, hlenk 8, ?_⟩
      · obtain ⟨arr, s', he, -, hs'⟩ :=
          seq8_spec (fun k (i : Nat) => do
              let m ← leaves (o k)
              pure ((), i + m)) 0
            (fun k acc => acc = psum n k) (fun _ _ => True) rfl
            (fun i s hs => ⟨(), s + n i, by simp [hl i], trivial, by
              simp [psum, i.isLt, hs]⟩)
        simp only [leaves, hty]
        rw [he]
        simp [hs']
      · intro data p hfit
        obtain ⟨arr, s', he, hR, hs'⟩ :=
          seq8_spec (fun k b => _all_polygons (o k) b) (⟨data, p⟩ : PolyBuf)
            (fun k b => b = ⟨splice data p (pjoin ts k), p + (pjoin ts k).length⟩)
            (fun i a => a = c' i) (by simp [pjoin, splice_nil])
            (fun i s hs => by
              have hm := pjoin_length_mono ts (i.val + 1) 8 (by omega)
              have hstep : pjoin ts (i.val + 1) = pjoin ts i.val ++ ts i := by
                simp [pjoin, i.isLt]
              rw [hstep, List.length_append] at hm
              refine ⟨c' i, ⟨splice data p (pjoin ts (i.val + 1)),
                p + (pjoin ts (i.val + 1)).length⟩, ?_, rfl, rfl⟩
              subst hs
              have hsl := splice_length data p (pjoin ts i.val) (by omega)
              show (o i)._all_polygons _ = _
              rw [hrun i _ _ (by rw [hsl]; omega),
                splice_splice data p _ _ (by omega), hstep]
              simp [Nat.add_assoc])
        have harr : arr = c' := funext hR
        subst harr
        simp only [_all_polygons, hty]
        simp [he, hs']

/-! ## C1: size of the output of `polygons` -/

/-- C1: on a well-formed tree `polygons()` returns `leaves() * 12` triangles; run on any
buffer of that length, whatever it held before, the traversal `_all_polygons` ends
without a write outside the buffer, with the pointer right behind the last slot and
with the same content in the buffer, so every slot has been written. -/
theorem polygons_length_eq_leaves (c : Cube) (hwf : c.WellFormed) :
    ∃ (n : Nat) (c' : Cube) (ts : List Polygon),
      c.leaves = .ok n ∧ c.polygons = .ok (c', ts) ∧ ts.length = n * 12 ∧
      ∀ data : List Polygon, data.length = n * 12 →
        c._all_polygons ⟨data, 0⟩ = .ok (c', ⟨ts, n * 12⟩) := by
  obtain ⟨n, c', ts, hl, hlen, hrun⟩ := all_polygons_spec c hwf
  have key : ∀ data : List Polygon, data.length = n * 12 →
      c._all_polygons ⟨data, 0⟩ = .ok (c', ⟨ts, n * 12⟩) := by
    intro data hd
    rw [hrun data 0 (by omega), splice_all data ts (by omega), hlen, Nat.zero_add]
  refine ⟨n, c', ts, hl, ?_, hlen, key⟩
  simp [polygons, hl, key (List.replicate (n * 12) Polygon.zero) (by simp)]

theorem sampleTree_wf : sampleTree.WellFormed := by
  simp only [sampleTree, ofOctants, Cube.WellFormed, freshData]
  refine ⟨by simp, fun _ i => ?_⟩
  fin_cases i <;> simp [Cube.WellFormed, ofType, ofIndentations, freshData]

theorem polygons_length_eq_leaves_witness :
    sampleTree.WellFormed ∧
    ∃ (n : Nat) (c' : Cube) (ts : List Polygon),
      sampleTree.leaves = .ok n ∧ sampleTree.polygons = .ok (c', ts) ∧ ts.length = n * 12 ∧
      ∀ data : List Polygon, data.length = n * 12 →
        sampleTree._all_polygons ⟨data, 0⟩ = .ok (c', ⟨ts, n * 12⟩) :=
  ⟨sampleTree_wf, polygons_length_eq_leaves sampleTree sampleTree_wf⟩

/-! ## C2, C3, C10: the triangles of the six faces -/

/-- C10: `_full_polygons` returns twelve triples of entries of `v` whose indices are a
fixed table; in this table the two triangles of each face (x=0, x=1, y=0, y=1, z=0, z=1
in this order) use only corners of that face, use all four of them, have three distinct
corners each and share exactly two corners, which differ in both in-face axis bits. -/
theorem full_polygons_faces :
    (∀ (α : Type) (v : Fin 8 → α) (k : Fin 12) (j : Fin 3),
      _full_polygons_of v k j = v (_full_polygons_of id k j)) ∧
    ∀ f : Fin 6,
      (∀ k j, onFace f (_full_polygons_of id (faceSlot f k) j)) ∧
      (∀ i, onFace f i → ∃ k, usesCorner (_full_polygons_of id (faceSlot f k)) i) ∧
      (∀ k, Function.Injective (_full_polygons_of (id : Fin 8 → Fin 8) (faceSlot f k))) ∧
      (sharedCorners (_full_polygons_of id) f).card = 2 ∧
      (∀ a ∈ sharedCorners (_full_polygons_of id) f,
        ∀ b ∈ sharedCorners (_full_polygons_of id) f, a ≠ b →
          ∀ axis : Fin 3, axis ≠ faceAxis f → cornerBit axis a ≠ cornerBit axis b) := by
  refine ⟨fun α v k j => by fin_cases k <;> fin_cases j <;> rfl, ?_⟩
  intro f
  refine ⟨?_, ?_, ?_, ?_, ?_⟩
  · revert f; decide
  · revert f; decide
  · revert f; decide
  · revert f; decide
  · revert f; decide

/-- Witness of C10: corner 7 lies on the face z = 1 and is used by a triangle of it. -/
theorem full_polygons_faces_witness :
    onFace 5 7 ∧ ∃ k, usesCorner (_full_polygons_of id (faceSlot 5 k)) 7 :=
  ⟨by decide, (full_polygons_faces.2 5).2.1 7 (by decide)⟩

/-! ### Entries of array literals -/

@[simp] theorem vec8_val_3 {α : Type} (a0 a1 a2 a3 a4 a5 a6 a7 : α) :
    ![a0, a1, a2, a3, a4, a5, a6, a7] 3 = a3 := rfl

@[simp] theorem vec8_val_4 {α : Type} (a0 a1 a2 a3 a4 a5 a6 a7 : α) :
    ![a0, a1, a2, a3, a4, a5, a6, a7] 4 = a4 := rfl

@[simp] theorem vec8_val_5 {α : Type} (a0 a1 a2 a3 a4 a5 a6 a7 : α) :
    ![a0, a1, a2, a3, a4, a5, a6, a7] 5 = a5 := rfl

@[simp] theorem vec8_val_6 {α : Type} (a0 a1 a2 a3 a4 a5 a6 a7 : α) :
    ![a0, a1, a2, a3, a4, a5, a6, a7] 6 = a6 := rfl

@[simp] theorem vec8_val_7 {α : Type} (a0 a1 a2 a3 a4 a5 a6 a7 : α) :
    ![a0, a1, a2, a3, a4, a5, a6, a7] 7 = a7 := rfl

@[simp] theorem vec12_val_3 {α : Type} (a0 a1 a2 a3 a4 a5 a6 a7 a8 a9 a10 a11 : α) :
    ![a0, a1, a2, a3, a4, a5, a6, a7, a8, a9, a10, a11] 3 = a3 := rfl

@[simp] theorem vec12_val_4 {α : Type} (a0 a1 a2 a3 a4 a5 a6 a7 a8 a9 a10 a11 : α) :
    ![a0, a1, a2, a3, a4, a5, a6, a7, a8, a9, a10, a11] 4 = a4 := rfl

@[simp] theorem vec12_val_5 {α : Type} (a0 a1 a2 a3 a4 a5 a6 a7 a8 a9 a10 a11 : α) :
    ![a0, a1, a2, a3, a4, a5, a6, a7, a8, a9, a10, a11] 5 = a5 := rfl

@[simp] theorem vec12_val_6 {α : Type} (a0 a1 a2 a3 a4 a5 a6 a7 a8 a9 a10 a11 : α) :
    ![a0, a1, a2, a3, a4, a5, a6, a7, a8, a9, a10, a11] 6 = a6 := rfl

@[simp] theorem vec12_val_7 {α : Type} (a0 a1 a2 a3 a4 a5 a6 a7 a8 a9 a10 a11 : α) :
    ![a0, a1, a2, a3, a4, a5, a6, a7, a8, a9, a10, a11] 7 = a7 := rfl

@[simp] theorem vec12_val_8 {α : Type} (a0 a1 a2 a3 a4 a5 a6 a7 a8 a9 a10 a11 : α) :
    ![a0, a1, a2, a3, a4, a5, a6, a7, a8, a9, a10, a11] 8 = a8 := rfl

@[simp] theorem vec12_val_9 {α : Type} (a0 a1 a2 a3 a4 a5 a6 a7 a8 a9 a10 a11 : α) :
    ![a0, a1, a2, a3, a4, a5, a6, a7, a8, a9, a10, a11] 9 = a9 := rfl

@[simp] theorem vec12_val_10 {α : Type} (a0 a1 a2 a3 a4 a5 a6 a7 a8 a9 a10 a11 : α) :
    ![a0, a1, a2, a3, a4, a5, a6, a7, a8, a9, a10, a11] 10 = a10 := rfl

@[simp] theorem vec12_val_11 {α : Type} (a0 a1 a2 a3 a4 a5 a6 a7 a8 a9 a10 a11 : α) :
    ![a0, a1, a2, a3, a4, a5, a6, a7, a8, a9, a10, a11] 11 = a11 := rfl

theorem indented_polygons_of_slot {α : Type} (v : Fin 8 → α) (in_ : Fin 8 → U8Vec3)
    (f : Fin 6) (k : Fin 2) :
    _indented_polygons_of v in_ (faceSlot f k)
      = if swapTest in_ f then swappedPolygons v (faceSlot f k)
        else _full_polygons_of v (faceSlot f k) := by
  fin_cases f <;> fin_cases k <;>
    simp [_indented_polygons_of, faceSlot, swapTest, ite_apply, Function.update_apply] <;>
    rfl

/-- C2: on the face z = 1 of a cube whose only non-zero magnitude is the z magnitude 1 of
corner 5, the non-default diagonal 1-7 has the strictly smaller sum (0 against 1 for the
default diagonal 3-5), yet `_indented_polygons` emits the two default triangles
(1,3,5) and (3,7,5): the test of Cube.cpp 281 reads corner 6 where corner 5 is meant. -/
theorem indented_polygons_face_z1_keeps_default :
    (indentZ5 1)._z + (indentZ5 7)._z < (indentZ5 3)._z + (indentZ5 5)._z ∧
    _indented_polygons_of id (fun i => (indentZ5 i).vec) 10 = ![1, 3, 5] ∧
    _indented_polygons_of id (fun i => (indentZ5 i).vec) 11 = ![3, 7, 5] ∧
    ∃ v polys, (ofIndentations indentZ5 1 ⟨0, 0, 0⟩)._vertices = .ok v ∧
      (ofIndentations indentZ5 1 ⟨0, 0, 0⟩)._indented_polygons = .ok polys ∧
      polys 10 = ![v 1, v 3, v 5] ∧ polys 11 = ![v 3, v 7, v 5] ∧
      polys 10 ≠ ![v 1, v 3, v 7] := by
  refine ⟨by decide, by decide, by decide, ?_⟩
  have hv : ∃ v, (ofIndentations indentZ5 1 ⟨0, 0, 0⟩)._vertices = .ok v ∧ v 5 ≠ v 7 := by
    refine ⟨_, rfl, ?_⟩
    simp [indentZ5, Indentation.vec, MAX_INDENTATION, ofIndentations, freshData, Cube.data]
  obtain ⟨v, hv, hne⟩ := hv
  refine ⟨v, _indented_polygons_of v (fun i => (indentZ5 i).vec), hv, ?_, rfl, rfl, ?_⟩
  · simp only [_indented_polygons, hv]
    simp [ofIndentations, freshData, _indentation_levels, value, Cube.data]
  · intro h
    have h2 := congrFun h 2
    exact hne h2

/-- C3: two indentation arrays that agree on the z magnitudes of the corners 1, 3, 5
and 7 of the face z = 1 (all of them 0) and differ in the z magnitude of corner 6 only
get different vertex indices for the first triangle of that face. -/
theorem indented_polygons_face_z1_reads_corner_6 :
    (∀ i : Fin 8, onFace 5 i → (indentZ6 i)._z = (indentZero i)._z) ∧
    _indented_polygons_of id (fun i => (indentZ6 i).vec) 10 = ![1, 3, 7] ∧
    _indented_polygons_of id (fun i => (indentZero i).vec) 10 = ![1, 3, 5] := by
  refine ⟨by decide, by decide, by decide⟩

/-- On the five faces other than z = 1 the triangles of a face depend only on the
magnitudes, on the axis normal to the face, of the four corners of the face. -/
theorem indented_polygons_face_depends {α : Type} (v : Fin 8 → α) (a b : Fin 8 → U8Vec3)
    (f : Fin 6) (hf : f ≠ 5)
    (h : ∀ i : Fin 8, onFace f i → (a i).onAxis (faceAxis f) = (b i).onAxis (faceAxis f))
    (k : Fin 2) :
    _indented_polygons_of v a (faceSlot f k) = _indented_polygons_of v b (faceSlot f k) := by
  have hs : swapTest a f ↔ swapTest b f := by
    fin_cases f
    · have h0 := h 0 (by decide); have h1 := h 1 (by decide)
      have h2 := h 2 (by decide); have h3 := h 3 (by decide)
      simp only [faceAxis, U8Vec3.onAxis] at h0 h1 h2 h3
      simp [swapTest, h0, h1, h2, h3]
    · have h0 := h 4 (by decide); have h1 := h 5 (by decide)
      have h2 := h 6 (by decide); have h3 := h 7 (by decide)
      simp only [faceAxis, U8Vec3.onAxis] at h0 h1 h2 h3
      simp [swapTest, h0, h1, h2, h3]
    · have h0 := h 0 (by decide); have h1 := h 1 (by decide)
      have h2 := h 4 (by decide); have h3 := h 5 (by decide)
      simp only [faceAxis, U8Vec3.onAxis] at h0 h1 h2 h3
      simp [swapTest, h0, h1, h2, h3]
    · have h0 := h 2 (by decide); have h1 := h 3 (by decide)
      have h2 := h 6 (by decide); have h3 := h 7 (by decide)
      simp only [faceAxis, U8Vec3.onAxis] at h0 h1 h2 h3
      simp [swapTest, h0, h1, h2, h3]
    · have h0 := h 0 (by decide); have h1 := h 2 (by decide)
      have h2 := h 4 (by decide); have h3 := h 6 (by decide)
      simp only [faceAxis, U8Vec3.onAxis] at h0 h1 h2 h3
      simp [swapTest, h0, h1, h2, h3]
    · exact absurd rfl hf
  rw [indented_polygons_of_slot, indented_polygons_of_slot]
  simp only [hs]

/-! ## C4: the wire format of an indentation -/

theorem bitsValue_magnitudeBits (m : Nat) (h : m ≤ 7) : bitsValue (magnitudeBits m) = m := by
  interval_cases m <;> rfl

theorem parse_one_axisBits (flagged : Bool) (m : Nat) (hm : m ≤ 7)
    (hz : flagged = false → m = 0) (rest : List Bool) :
    Indentation._parse_one ⟨axisBits flagged m ++ rest⟩ = .ok (m, ⟨rest⟩) := by
  cases flagged with
  | false =>
    have : m = 0 := hz rfl
    subst this
    simp [Indentation._parse_one, axisBits, BitStream.get, value, bitsValue]
  | true =>
    have hv := bitsValue_magnitudeBits m hm
    have hlt : m % 256 = m := by omega
    simp [Indentation._parse_one, axisBits, BitStream.get, value, magnitudeBits, bitsValue] at hv ⊢
    simp [hv, hlt]

/-- When the three arguments are evaluated in the order in which they are written,
`Indentation::parse` decodes the axes x, y, z in this order and consumes
`3 + 3 * (number of flagged axes)` bits. -/
theorem indentation_parse_left_to_right (fx fy fz : Bool) (x y z : Nat)
    (hx : x ≤ 7) (hy : y ≤ 7) (hz : z ≤ 7)
    (hfx : fx = false → x = 0) (hfy : fy = false → y = 0) (hfz : fz = false → z = 0)
    (rest : List Bool) :
    Indentation.parse .xyz ⟨indentationBits fx fy fz x y z ++ rest⟩ = .ok (⟨x, y, z⟩, ⟨rest⟩) ∧
    (indentationBits fx fy fz x y z).length = 3 + 3 * flagCount fx fy fz := by
  constructor
  · simp only [Indentation.parse, indentationBits, List.append_assoc]
    rw [parse_one_axisBits fx x hx hfx]
    simp only [bind_ok]
    rw [parse_one_axisBits fy y hy hfy]
    simp only [bind_ok]
    rw [parse_one_axisBits fz z hz hfz]
    rfl
  · cases fx <;> cases fy <;> cases fz <;> rfl

/-- C4: the bits `1 101 0 1 011` parse to (5,0,3) when the three constructor arguments of
`Indentation::parse` are evaluated in the order in which they are written, and to
(3,0,5) when they are evaluated from right to left: the order of the axes in the wire
format follows the evaluation order of the arguments, which C++ leaves open. -/
theorem indentation_parse_follows_argument_order :
    Indentation.parse .xyz ⟨bits_5_0_3⟩ = .ok (⟨5, 0, 3⟩, ⟨[]⟩) ∧
    Indentation.parse .zyx ⟨bits_5_0_3⟩ = .ok (⟨3, 0, 5⟩, ⟨[]⟩) ∧
    bits_5_0_3 = indentationBits true false true 5 0 3 :=
  ⟨rfl, rfl, rfl⟩

/-! ## C7, C8, C9: the type tag and the vertices of a leaf -/

theorem get_of_le (s : BitStream) (n : Nat) (h : n ≤ s.remaining) :
    s.get n = some (bitsValue (s.bits.take n), ⟨s.bits.drop n⟩) := by
  simp [BitStream.get, BitStream.remaining] at h ⊢
  exact h

theorem bitsValue_two_lt (l : List Bool) (h : l.length = 2) : bitsValue l < 4 := by
  match l, h with
  | [a, b], _ => cases a <;> cases b <;> decide

/-- C7: on a stream with at least two bits `Cube::parse` reads a tag below 4; on tag 0
(resp. 1) it returns the `EMPTY` (resp. `FULL`) cube of the given size and position, with
neither indentations nor octants, and the stream advanced by exactly two bits; on tag 2
(resp. 3) every cube it returns is `INDENTED` (resp. `OCTANTS`). -/
theorem parse_tag (order : ArgOrder) (s : BitStream) (size : ℚ) (position : Vec3)
    (h : 2 ≤ s.remaining) :
    bitsValue (s.bits.take 2) < 4 ∧
    (bitsValue (s.bits.take 2) = 0 →
      parse order s size position = .ok (ofType .EMPTY size position, ⟨s.bits.drop 2⟩)) ∧
    (bitsValue (s.bits.take 2) = 1 →
      parse order s size position = .ok (ofType .FULL size position, ⟨s.bits.drop 2⟩)) ∧
    (∀ t : CubeType, (ofType t size position).type = t ∧
      (ofType t size position).data._size = size ∧
      (ofType t size position).data._position = position ∧
      (ofType t size position).data.indentations = none ∧
      (ofType t size position).octants = none) ∧
    (bitsValue (s.bits.take 2) = 2 →
      ∀ c s', parse order s size position = .ok (c, s') → c.type = .INDENTED) ∧
    (bitsValue (s.bits.take 2) = 3 →
      ∀ c s', parse order s size position = .ok (c, s') → c.type = .OCTANTS) := by
  have hg := get_of_le s 2 h
  refine ⟨bitsValue_two_lt _ (by simp [BitStream.remaining] at h; simp; omega), ?_, ?_, ?_, ?_, ?_⟩
  · intro h0
    simp [parse, parseFuel, hg, value, h0, CubeType.cast]
  · intro h1
    simp [parse, parseFuel, hg, value, h1, CubeType.cast]
  · intro t
    exact ⟨rfl, rfl, rfl, rfl, rfl⟩
  · intro h2 c s'
    simp only [parse, parseFuel, hg, value, h2, CubeType.cast, bind_ok]
    simp only [reduceCtorEq, or_self, if_false, if_true]
    cases seq8 (fun _ st => Indentation.parse order st) ⟨s.bits.drop 2⟩ with
    | error e => simp
    | ok r =>
      simp only [bind_ok, pure_eq_ok, Except.ok.injEq, Prod.mk.injEq]
      rintro ⟨rfl, -⟩
      rfl
  · intro h3 c s'
    simp only [parse, parseFuel, hg, value, h3, CubeType.cast, bind_ok]
    simp only [reduceCtorEq, or_self, if_false]
    cases seq8 (fun i st => parseFuel order s.remaining st (size / 2)
        (octantPositions size position i)) ⟨s.bits.drop 2⟩ with
    | error e => simp
    | ok r =>
      simp only [bind_ok, pure_eq_ok, Except.ok.injEq, Prod.mk.injEq]
      rintro ⟨rfl, -⟩
      rfl

/-- C8: the vertices of a `FULL` cube with edge length `S` and origin `p`: the vertex at
index `4*bx + 2*by + bz` is `p + S * (bx, by, bz)`, and for `p = (0,0,0)` the set of
the eight vertices is `{0,S} × {0,S} × {0,S}`. -/
theorem vertices_full (c : Cube) (h : c.data._type = .FULL) :
    ∃ v : Fin 8 → Vec3, c._vertices = .ok v ∧
      (∀ bx bY bz : Fin 2, v (cornerIndex bx bY bz) =
        ⟨c.data._position.x + c.data._size * (bx.val : ℚ),
         c.data._position.y + c.data._size * (bY.val : ℚ),
         c.data._position.z + c.data._size * (bz.val : ℚ)⟩) ∧
      (c.data._position = ⟨0, 0, 0⟩ →
        Set.range v = {q : Vec3 | (q.x = 0 ∨ q.x = c.data._size) ∧
          (q.y = 0 ∨ q.y = c.data._size) ∧ (q.z = 0 ∨ q.z = c.data._size)}) := by
  refine ⟨_, by simp [_vertices, h]; rfl, ?_, ?_⟩
  · intro bx bY bz
    fin_cases bx <;> fin_cases bY <;> fin_cases bz <;> simp [cornerIndex]
  · intro hp
    ext q
    simp only [Set.mem_range, Set.mem_setOf_eq, hp]
    constructor
    · rintro ⟨i, rfl⟩
      fin_cases i <;> simp
    · rintro ⟨hx, hy, hz⟩
      obtain ⟨qx, qy, qz⟩ := q
      simp only at hx hy hz
      rcases hx with rfl | rfl <;> rcases hy with rfl | rfl <;> rcases hz with rfl | rfl
      · exact ⟨0, by simp⟩
      · exact ⟨1, by simp⟩
      · exact ⟨2, by simp⟩
      · exact ⟨3, by simp⟩
      · exact ⟨4, by simp⟩
      · exact ⟨5, by simp⟩
      · exact ⟨6, by simp⟩
      · exact ⟨7, by simp⟩

/-- C9: the vertices of an `INDENTED` cube with edge length `S`, origin `p` and far
corner `f = p + (S,S,S)`: on each axis the coordinate of corner `4*bx + 2*by + bz` is
`p + (S/8) * m` when the bit of the corner on that axis is 0 and `f - (S/8) * m` when it
is 1, `m` being the magnitude of the indentation of the corner on that axis. -/
theorem vertices_indented (c : Cube) (ind : Fin 8 → Indentation)
    (h : c.data._type = .INDENTED) (hind : c.data.indentations = some ind) :
    ∃ v : Fin 8 → Vec3, c._vertices = .ok v ∧
      ∀ bx bY bz : Fin 2,
        (v (cornerIndex bx bY bz)).x =
          (if bx = 0 then c.data._position.x + c.data._size / 8 * ((ind (cornerIndex bx bY bz))._x : ℚ)
           else c.data._position.x + c.data._size
             - c.data._size / 8 * ((ind (cornerIndex bx bY bz))._x : ℚ)) ∧
        (v (cornerIndex bx bY bz)).y =
          (if bY = 0 then c.data._position.y + c.data._size / 8 * ((ind (cornerIndex bx bY bz))._y : ℚ)
           else c.data._position.y + c.data._size
             - c.data._size / 8 * ((ind (cornerIndex bx bY bz))._y : ℚ)) ∧
        (v (cornerIndex bx bY bz)).z =
          (if bz = 0 then c.data._position.z + c.data._size / 8 * ((ind (cornerIndex bx bY bz))._z : ℚ)
           else c.data._position.z + c.data._size
             - c.data._size / 8 * ((ind (cornerIndex bx bY bz))._z : ℚ)) := by
  refine ⟨_, by simp [_vertices, h, _indentation_levels, hind, value]; rfl, ?_⟩
  intro bx bY bz
  fin_cases bx <;> fin_cases bY <;> fin_cases bz <;>
    simp [cornerIndex, Indentation.vec, MAX_INDENTATION]

/-- Witness of C7: the stream `01 1` starts with the tag of a full cube. -/
theorem parse_tag_witness :
    2 ≤ (BitStream.mk bits_full).remaining ∧
    parse .xyz ⟨bits_full⟩ 1 ⟨0, 0, 0⟩ = .ok (ofType .FULL 1 ⟨0, 0, 0⟩, ⟨[true]⟩) :=
  ⟨by decide, (parse_tag .xyz ⟨bits_full⟩ 1 ⟨0, 0, 0⟩ (by decide)).2.2.1 rfl⟩

/-- Witness of C8: the full cube of size 2 at the origin. -/
theorem vertices_full_witness :
    (ofType .FULL 2 ⟨0, 0, 0⟩).data._type = .FULL ∧
    ∃ v : Fin 8 → Vec3, (ofType .FULL 2 ⟨0, 0, 0⟩)._vertices = .ok v ∧
      (∀ bx bY bz : Fin 2, v (cornerIndex bx bY bz) =
        ⟨(ofType .FULL 2 ⟨0, 0, 0⟩).data._position.x
            + (ofType .FULL 2 ⟨0, 0, 0⟩).data._size * (bx.val : ℚ),
         (ofType .FULL 2 ⟨0, 0, 0⟩).data._position.y
            + (ofType .FULL 2 ⟨0, 0, 0⟩).data._size * (bY.val : ℚ),
         (ofType .FULL 2 ⟨0, 0, 0⟩).data._position.z
            + (ofType .FULL 2 ⟨0, 0, 0⟩).data._size * (bz.val : ℚ)⟩) ∧
      ((ofType .FULL 2 ⟨0, 0, 0⟩).data._position = ⟨0, 0, 0⟩ →
        Set.range v = {q : Vec3 | (q.x = 0 ∨ q.x = (ofType .FULL 2 ⟨0, 0, 0⟩).data._size) ∧
          (q.y = 0 ∨ q.y = (ofType .FULL 2 ⟨0, 0, 0⟩).data._size) ∧
          (q.z = 0 ∨ q.z = (ofType .FULL 2 ⟨0, 0, 0⟩).data._size)}) :=
  ⟨rfl, vertices_full (ofType .FULL 2 ⟨0, 0, 0⟩) rfl⟩

/-- Witness of C9: the cube of size 1 at the origin whose corner 5 is indented by 1 on
the z axis has its vertex 5 at height `1 - 1/8`. -/
theorem vertices_indented_witness :
    (ofIndentations indentZ5 1 ⟨0, 0, 0⟩).data._type = .INDENTED ∧
    (ofIndentations indentZ5 1 ⟨0, 0, 0⟩).data.indentations = some indentZ5 ∧
    ∃ v : Fin 8 → Vec3, (ofIndentations indentZ5 1 ⟨0, 0, 0⟩)._vertices = .ok v ∧
      (v 5).z = 7 / 8 := by
  obtain ⟨v, hv, hc⟩ := vertices_indented (ofIndentations indentZ5 1 ⟨0, 0, 0⟩) indentZ5 rfl rfl
  refine ⟨rfl, rfl, v, hv, ?_⟩
  have h := (hc 1 0 1).2.2
  have e : cornerIndex 1 0 1 = 5 := rfl
  rw [e] at h
  rw [h]
  simp [ofIndentations, freshData, Cube.data, indentZ5]
  norm_num

/-! ## Lemmas on the decoder -/

theorem bind_congr_ok {α β : Type} (x y : Except Err α) (k1 k2 : α → Except Err β)
    (hxy : x = y) (hk : ∀ a, x = .ok a → k1 a = k2 a) : (x >>= k1) = (y >>= k2) := by
  subst hxy
  cases x with
  | error e => rfl
  | ok a => exact hk a rfl

/-- Two sequences of eight calls that agree on every state satisfying an invariant
carried by the successful calls give the same result, errors included. -/
theorem seq8_congr {σ α : Type} (f g : Fin 8 → σ → Except Err (α × σ)) (s0 : σ)
    (Inv : σ → Prop) (h0 : Inv s0) (hfg : ∀ i s, Inv s → f i s = g i s)
    (hpres : ∀ i s a s', Inv s → f i s = .ok (a, s') → Inv s') :
    seq8 f s0 = seq8 g s0 := by
  unfold seq8
  refine bind_congr_ok _ _ _ _ (hfg 0 s0 h0) (fun ⟨a0, s1⟩ e0 => ?_)
  have i1 := hpres 0 s0 a0 s1 h0 e0
  refine bind_congr_ok _ _ _ _ (hfg 1 s1 i1) (fun ⟨a1, s2⟩ e1 => ?_)
  have i2 := hpres 1 s1 a1 s2 i1 e1
  refine bind_congr_ok _ _ _ _ (hfg 2 s2 i2) (fun ⟨a2, s3⟩ e2 => ?_)
  have i3 := hpres 2 s2 a2 s3 i2 e2
  refine bind_congr_ok _ _ _ _ (hfg 3 s3 i3) (fun ⟨a3, s4⟩ e3 => ?_)
  have i4 := hpres 3 s3 a3 s4 i3 e3
  refine bind_congr_ok _ _ _ _ (hfg 4 s4 i4) (fun ⟨a4, s5⟩ e4 => ?_)
  have i5 := hpres 4 s4 a4 s5 i4 e4
  refine bind_congr_ok _ _ _ _ (hfg 5 s5 i5) (fun ⟨a5, s6⟩ e5 => ?_)
  have i6 := hpres 5 s5 a5 s6 i5 e5
  refine bind_congr_ok _ _ _ _ (hfg 6 s6 i6) (fun ⟨a6, s7⟩ e6 => ?_)
  have i7 := hpres 6 s6 a6 s7 i6 e6
  refine bind_congr_ok _ _ _ _ (hfg 7 s7 i7) (fun ⟨a7, s8⟩ _ => ?_)
  rfl

/-- A sequence of eight calls ends in an error only if one of the calls does, on a state
that satisfies every invariant carried by the successful calls. -/
theorem seq8_error {σ α : Type} (f : Fin 8 → σ → Except Err (α × σ)) (s0 : σ) (e : Err)
    (Inv : σ → Prop) (h0 : Inv s0)
    (hpres : ∀ i s a s', Inv s → f i s = .ok (a, s') → Inv s')
    (h : seq8 f s0 = .error e) : ∃ i s, Inv s ∧ f i s = .error e := by
  unfold seq8 at h
  cases e0 : f 0 s0 with
  | error e' => rw [e0] at h; exact ⟨0, s0, h0, by rw [e0]; simpa using h⟩
  | ok r0 =>
  obtain ⟨a0, s1⟩ := r0
  have i1 := hpres 0 s0 a0 s1 h0 e0
  rw [e0] at h
  simp only [bind_ok] at h
  cases e1 : f 1 s1 with
  | error e' => rw [e1] at h; exact ⟨1, s1, i1, by rw [e1]; simpa using h⟩
  | ok r1 =>
  obtain ⟨a1, s2⟩ := r1
  have i2 := hpres 1 s1 a1 s2 i1 e1
  rw [e1] at h
  simp only [bind_ok] at h
  cases e2 : f 2 s2 with
  | error e' => rw [e2] at h; exact ⟨2, s2, i2, by rw [e2]; simpa using h⟩
  | ok r2 =>
  obtain ⟨a2, s3⟩ := r2
  have i3 := hpres 2 s2 a2 s3 i2 e2
  rw [e2] at h
  simp only [bind_ok] at h
  cases e3 : f 3 s3 with
  | error e' => rw [e3] at h; exact ⟨3, s3, i3, by rw [e3]; simpa using h⟩
  | ok r3 =>
  obtain ⟨a3, s4⟩ := r3
  have i4 := hpres 3 s3 a3 s4 i3 e3
  rw [e3] at h
  simp only [bind_ok] at h
  cases e4 : f 4 s4 with
  | error e' => rw [e4] at h; exact ⟨4, s4, i4, by rw [e4]; simpa using h⟩
  | ok r4 =>
  obtain ⟨a4, s5⟩ := r4
  have i5 := hpres 4 s4 a4 s5 i4 e4
  rw [e4] at h
  simp only [bind_ok] at h
  cases e5 : f 5 s5 with
  | error e' => rw [e5] at h; exact ⟨5, s5, i5, by rw [e5]; simpa using h⟩
  | ok r5 =>
  obtain ⟨a5, s6⟩ := r5
  have i6 := hpres 5 s5 a5 s6 i5 e5
  rw [e5] at h
  simp only [bind_ok] at h
  cases e6 : f 6 s6 with
  | error e' => rw [e6] at h; exact ⟨6, s6, i6, by rw [e6]; simpa using h⟩
  | ok r6 =>
  obtain ⟨a6, s7⟩ := r6
  have i7 := hpres 6 s6 a6 s7 i6 e6
  rw [e6] at h
  simp only [bind_ok] at h
  cases e7 : f 7 s7 with
  | error e' => rw [e7] at h; exact ⟨7, s7, i7, by rw [e7]; simpa using h⟩
  | ok r7 =>
  rw [e7] at h
  simp at h

/-- The states between the eight calls of a sequence that succeeds. -/
theorem seq8_chain {σ α : Type} (f : Fin 8 → σ → Except Err (α × σ)) (s0 s' : σ)
    (arr : Fin 8 → α) (h : seq8 f s0 = .ok (arr, s')) :
    ∃ st : Nat → σ, st 0 = s0 ∧ st 8 = s' ∧
      ∀ i : Fin 8, f i (st i.val) = .ok (arr i, st (i.val + 1)) := by
  unfold seq8 at h
  cases e0 : f 0 s0 with
  | error e' => rw [e0] at h; simp at h
  | ok r0 =>
  obtain ⟨a0, s1⟩ := r0
  rw [e0] at h
  simp only [bind_ok] at h
  cases e1 : f 1 s1 with
  | error e' => rw [e1] at h; simp at h
  | ok r1 =>
  obtain ⟨a1, s2⟩ := r1
  rw [e1] at h
  simp only [bind_ok] at h
  cases e2 : f 2 s2 with
  | error e' => rw [e2] at h; simp at h
  | ok r2 =>
  obtain ⟨a2, s3⟩ := r2
  rw [e2] at h
  simp only [bind_ok] at h
  cases e3 : f 3 s3 with
  | error e' => rw [e3] at h; simp at h
  | ok r3 =>
  obtain ⟨a3, s4⟩ := r3
  rw [e3] at h
  simp only [bind_ok] at h
  cases e4 : f 4 s4 with
  | error e' => rw [e4] at h; simp at h
  | ok r4 =>
  obtain ⟨a4, s5⟩ := r4
  rw [e4] at h
  simp only [bind_ok] at h
  cases e5 : f 5 s5 with
  | error e' => rw [e5] at h; simp at h
  | ok r5 =>
  obtain ⟨a5, s6⟩ := r5
  rw [e5] at h
  simp only [bind_ok] at h
  cases e6 : f 6 s6 with
  | error e' => rw [e6] at h; simp at h
  | ok r6 =>
  obtain ⟨a6, s7⟩ := r6
  rw [e6] at h
  simp only [bind_ok] at h
  cases e7 : f 7 s7 with
  | error e' => rw [e7] at h; simp at h
  | ok r7 =>
  obtain ⟨a7, s8⟩ := r7
  rw [e7] at h
  simp only [bind_ok, pure_eq_ok, Except.ok.injEq, Prod.mk.injEq] at h
  obtain ⟨rfl, rfl⟩ := h
  refine ⟨fun k => [s0, s1, s2, s3, s4, s5, s6, s7, s8].getD k s0, rfl, rfl, ?_⟩
  intro i
  fin_cases i <;> assumption

theorem get_eq_some (s : BitStream) (n v : Nat) (s' : BitStream) (h : s.get n = some (v, s')) :
    n ≤ s.bits.length ∧ v = bitsValue (s.bits.take n) ∧ s' = ⟨s.bits.drop n⟩ := by
  unfold BitStream.get at h
  split at h
  · simp only [Option.some.injEq, Prod.mk.injEq] at h
    exact ⟨by assumption, h.1.symm, h.2.symm⟩
  · simp at h

theorem get_remaining (s : BitStream) (n v : Nat) (s' : BitStream)
    (h : s.get n = some (v, s')) : s'.remaining + n = s.remaining := by
  obtain ⟨h1, -, rfl⟩ := get_eq_some s n v s' h
  simp [BitStream.remaining]
  omega

theorem value_eq_ok {α : Type} (o : Option α) (a : α) (h : value o = .ok a) : o = some a := by
  cases o with
  | none => simp [value] at h
  | some b => simp [value] at h; rw [h]

theorem value_eq_error {α : Type} (o : Option α) (e : Err) (h : value o = .error e) :
    o = none ∧ e = .bad_optional_access := by
  cases o with
  | none => simp [value] at h; exact ⟨rfl, h.symm⟩
  | some b => simp [value] at h

theorem parse_one_remaining (s : BitStream) (m : Nat) (s' : BitStream)
    (h : Indentation._parse_one s = .ok (m, s')) : s'.remaining + 1 ≤ s.remaining := by
  unfold Indentation._parse_one at h
  cases h1 : s.get 1 with
  | none => simp [h1, value] at h
  | some r =>
    obtain ⟨fl, s1⟩ := r
    have e1 := get_remaining s 1 fl s1 h1
    simp only [h1, value, bind_ok] at h
    split at h
    · cases h3 : s1.get 3 with
      | none => simp [h3] at h
      | some r3 =>
        obtain ⟨mv, s3⟩ := r3
        have e3 := get_remaining s1 3 mv s3 h3
        simp only [h3, bind_ok, pure_eq_ok, Except.ok.injEq, Prod.mk.injEq] at h
        obtain ⟨-, rfl⟩ := h
        omega
    · simp only [pure_eq_ok, Except.ok.injEq, Prod.mk.injEq] at h
      obtain ⟨-, rfl⟩ := h
      omega

theorem parse_one_error (s : BitStream) (e : Err) (h : Indentation._parse_one s = .error e) :
    e = .bad_optional_access := by
  unfold Indentation._parse_one at h
  cases h1 : s.get 1 with
  | none => simp [h1, value] at h; exact h.symm
  | some r =>
    obtain ⟨fl, s1⟩ := r
    simp only [h1, value, bind_ok] at h
    split at h
    · cases h3 : s1.get 3 with
      | none => simp [h3] at h; exact h.symm
      | some r3 => simp [h3] at h
    · simp at h

theorem indentation_parse_remaining (order : ArgOrder) (s : BitStream) (i : Indentation)
    (s' : BitStream) (h : Indentation.parse order s = .ok (i, s')) :
    s'.remaining + 3 ≤ s.remaining := by
  unfold Indentation.parse at h
  cases ha : Indentation._parse_one s with
  | error e => simp [ha] at h
  | ok ra =>
    obtain ⟨a, s1⟩ := ra
    simp only [ha, bind_ok] at h
    cases hb : Indentation._parse_one s1 with
    | error e => simp [hb] at h
    | ok rb =>
      obtain ⟨b, s2⟩ := rb
      simp only [hb, bind_ok] at h
      cases hc : Indentation._parse_one s2 with
      | error e => simp [hc] at h
      | ok rc =>
        obtain ⟨c, s3⟩ := rc
        simp only [hc, bind_ok] at h
        have r1 := parse_one_remaining _ _ _ ha
        have r2 := parse_one_remaining _ _ _ hb
        have r3 := parse_one_remaining _ _ _ hc
        have : s' = s3 := by
          cases order <;> simp at h <;> exact h.2.symm
        subst this
        omega

theorem indentation_parse_error (order : ArgOrder) (s : BitStream) (e : Err)
    (h : Indentation.parse order s = .error e) : e = .bad_optional_access := by
  unfold Indentation.parse at h
  cases ha : Indentation._parse_one s with
  | error e' => simp [ha] at h; subst h; exact parse_one_error _ _ ha
  | ok ra =>
    obtain ⟨a, s1⟩ := ra
    simp only [ha, bind_ok] at h
    cases hb : Indentation._parse_one s1 with
    | error e' => simp [hb] at h; subst h; exact parse_one_error _ _ hb
    | ok rb =>
      obtain ⟨b, s2⟩ := rb
      simp only [hb, bind_ok] at h
      cases hc : Indentation._parse_one s2 with
      | error e' => simp [hc] at h; subst h; exact parse_one_error _ _ hc
      | ok rc =>
        obtain ⟨c, s3⟩ := rc
        simp only [hc, bind_ok] at h
        cases order <;> simp at h

theorem chain_remaining (st : Nat → BitStream)
    (h : ∀ i : Fin 8, (st (i.val + 1)).remaining ≤ (st i.val).remaining) (k : Nat)
    (hk : k ≤ 8) : (st k).remaining ≤ (st 0).remaining := by
  induction k with
  | zero => exact Nat.le_refl _
  | succ k ih =>
    have := h ⟨k, by omega⟩
    have := ih (by omega)
    simp only at *
    omega

/-- `Cube::parse`, one level unfolded, by the value of the tag. -/
theorem parseFuel_succ (order : ArgOrder) (f : Nat) (s : BitStream) (size : ℚ)
    (position : Vec3) :
    parseFuel order (f + 1) s size position =
      match s.get 2 with
      | none => .error .bad_optional_access
      | some (tag, s0) =>
        if tag = 0 then .ok (ofType .EMPTY size position, s0)
        else if tag = 1 then .ok (ofType .FULL size position, s0)
        else if tag = 2 then
          seq8 (fun _ st => Indentation.parse order st) s0 >>= fun r =>
            .ok (ofIndentations r.1 size position, r.2)
        else if tag = 3 then
          seq8 (fun i st => parseFuel order f st (size / 2)
            (octantPositions size position i)) s0 >>= fun r =>
            .ok (ofOctants r.1 size position, r.2)
        else .error .assertion_failed := by
  simp only [parseFuel]
  cases s.get 2 with
  | none => rfl
  | some r =>
    obtain ⟨tag, s0⟩ := r
    rcases tag with _ | _ | _ | _ | n
    · rfl
    · rfl
    · rfl
    · rfl
    · simp [value, CubeType.cast]

theorem get_two_lt (s : BitStream) (tag : Nat) (s0 : BitStream)
    (h : s.get 2 = some (tag, s0)) : tag < 4 := by
  obtain ⟨h1, rfl, -⟩ := get_eq_some s 2 tag s0 h
  exact bitsValue_two_lt _ (by simp; omega)

/-- A successful `Cube::parse` has consumed at least the two bits of the tag. -/
theorem parseFuel_remaining (order : ArgOrder) (f : Nat) :
    ∀ (s : BitStream) (size : ℚ) (position : Vec3) (c : Cube) (s' : BitStream),
      parseFuel order f s size position = .ok (c, s') → s'.remaining + 2 ≤ s.remaining := by
  induction f with
  | zero => intro s size position c s' h; simp [parseFuel] at h
  | succ f ih =>
    intro s size position c s' h
    rw [parseFuel_succ] at h
    cases hg : s.get 2 with
    | none => simp [hg] at h
    | some r =>
      obtain ⟨tag, s0⟩ := r
      have hr := get_remaining s 2 tag s0 hg
      simp only [hg] at h
      split_ifs at h with h0 h1 h2 h3
      · simp only [Except.ok.injEq, Prod.mk.injEq] at h
        obtain ⟨-, rfl⟩ := h
        omega
      · simp only [Except.ok.injEq, Prod.mk.injEq] at h
        obtain ⟨-, rfl⟩ := h
        omega
      · cases hq : seq8 (fun _ st => Indentation.parse order st) s0 with
        | error e => simp [hq] at h
        | ok r =>
          obtain ⟨arr, s8⟩ := r
          simp only [hq, bind_ok, Except.ok.injEq, Prod.mk.injEq] at h
          obtain ⟨-, rfl⟩ := h
          obtain ⟨st, e0, e8, hst⟩ := seq8_chain _ _ _ _ hq
          have := chain_remaining st (fun i => by
            have := indentation_parse_remaining _ _ _ _ (hst i)
            omega) 8 (Nat.le_refl _)
          rw [e0, e8] at this
          omega
      · cases hq : seq8 (fun i st => parseFuel order f st (size / 2)
            (octantPositions size position i)) s0 with
        | error e => simp [hq] at h
        | ok r =>
          obtain ⟨arr, s8⟩ := r
          simp only [hq, bind_ok, Except.ok.injEq, Prod.mk.injEq] at h
          obtain ⟨-, rfl⟩ := h
          obtain ⟨st, e0, e8, hst⟩ := seq8_chain _ _ _ _ hq
          have := chain_remaining st (fun i => by
            have := ih _ _ _ _ _ (hst i)
            omega) 8 (Nat.le_refl _)
          rw [e0, e8] at this
          omega

/-- With a budget above the number of remaining bits, `Cube::parse` fails only with
`std::bad_optional_access`. -/
theorem parseFuel_error (order : ArgOrder) (f : Nat) :
    ∀ (s : BitStream) (size : ℚ) (position : Vec3) (e : Err), s.remaining < f →
      parseFuel order f s size position = .error e → e = .bad_optional_access := by
  induction f with
  | zero => intro s size position e hlt; omega
  | succ f ih =>
    intro s size position e hlt h
    rw [parseFuel_succ] at h
    cases hg : s.get 2 with
    | none => simp [hg] at h; exact h.symm
    | some r =>
      obtain ⟨tag, s0⟩ := r
      have hr := get_remaining s 2 tag s0 hg
      have ht := get_two_lt s tag s0 hg
      simp only [hg] at h
      split_ifs at h with h0 h1 h2 h3
      · cases hq : seq8 (fun _ st => Indentation.parse order st) s0 with
        | error e' =>
          simp only [hq, bind_error, Except.error.injEq] at h
          subst h
          obtain ⟨i, st, -, he⟩ := seq8_error _ _ _ (fun _ => True) trivial
            (fun _ _ _ _ _ _ => trivial) hq
          exact indentation_parse_error _ _ _ he
        | ok r => simp [hq] at h
      · cases hq : seq8 (fun i st => parseFuel order f st (size / 2)
            (octantPositions size position i)) s0 with
        | error e' =>
          simp only [hq, bind_error, Except.error.injEq] at h
          subst h
          obtain ⟨i, st, hinv, he⟩ := seq8_error _ _ _ (fun st => st.remaining < f)
            (by omega) (fun i st a st' hst hok => by
              have := parseFuel_remaining order f _ _ _ _ _ hok
              omega) hq
          exact ih _ _ _ _ hinv he
        | ok r => simp [hq] at h
      · omega

/-- A budget above the number of remaining bits is as good as any larger one. -/
theorem parseFuel_fuel (order : ArgOrder) (f : Nat) :
    ∀ (f' : Nat) (s : BitStream) (size : ℚ) (position : Vec3), s.remaining < f → f ≤ f' →
      parseFuel order f' s size position = parseFuel order f s size position := by
  induction f with
  | zero => intro f' s size position hlt; omega
  | succ f ih =>
    intro f' s size position hlt hle
    obtain ⟨g, rfl⟩ : ∃ g, f' = g + 1 := ⟨f' - 1, by omega⟩
    rw [parseFuel_succ, parseFuel_succ]
    cases hg : s.get 2 with
    | none => rfl
    | some r =>
      obtain ⟨tag, s0⟩ := r
      have hr := get_remaining s 2 tag s0 hg
      simp only
      have : seq8 (fun i st => parseFuel order g st (size / 2)
            (octantPositions size position i)) s0
          = seq8 (fun i st => parseFuel order f st (size / 2)
            (octantPositions size position i)) s0 :=
        seq8_congr _ _ s0 (fun st => st.remaining < f) (by omega)
          (fun i st hst => ih g st _ _ hst (by omega))
          (fun i st a st' hst hok => by
            have := parseFuel_remaining order g _ _ _ _ _ hok
            omega)
      rw [this]

/-- The budget that `parse` uses is enough: any larger one gives the same result. -/
theorem parseFuel_fuel_irrelevant (order : ArgOrder) (f : Nat) (s : BitStream) (size : ℚ)
    (position : Vec3) (h : s.remaining < f) :
    parseFuel order f s size position = parse order s size position :=
  parseFuel_fuel order (s.remaining + 1) f s size position (Nat.lt_succ_self _) h

/-- `Cube::parse` returns a cube or throws `std::bad_optional_access`. -/
theorem parse_error (order : ArgOrder) (s : BitStream) (size : ℚ) (position : Vec3) (e : Err)
    (h : parse order s size position = .error e) : e = .bad_optional_access :=
  parseFuel_error order _ s size position e (Nat.lt_succ_self _) h

theorem parse_remaining (order : ArgOrder) (s : BitStream) (size : ℚ) (position : Vec3)
    (c : Cube) (s' : BitStream) (h : parse order s size position = .ok (c, s')) :
    s'.remaining + 2 ≤ s.remaining :=
  parseFuel_remaining order _ s size position c s' h

/-! ## C5, C6: truncated streams and the octants of a decoded cube -/

theorem get_append (s : BitStream) (t : List Bool) (n v : Nat) (s' : BitStream)
    (h : s.get n = some (v, s')) : (s.append t).get n = some (v, s'.append t) := by
  obtain ⟨h1, rfl, rfl⟩ := get_eq_some s n v s' h
  have h2 : n ≤ s.bits.length + t.length := by omega
  simp [BitStream.get, BitStream.append, h2, List.take_append_of_le_length h1,
    List.drop_append_of_le_length h1]

theorem parse_one_append (s : BitStream) (t : List Bool) (m : Nat) (s' : BitStream)
    (h : Indentation._parse_one s = .ok (m, s')) :
    Indentation._parse_one (s.append t) = .ok (m, s'.append t) := by
  unfold Indentation._parse_one at h ⊢
  cases h1 : s.get 1 with
  | none => simp [h1, value] at h
  | some r =>
    obtain ⟨fl, s1⟩ := r
    simp only [h1, value, bind_ok] at h
    simp only [get_append s t 1 fl s1 h1, value, bind_ok]
    split at h
    · rename_i hfl
      cases h3 : s1.get 3 with
      | none => simp [h3] at h
      | some r3 =>
        obtain ⟨mv, s3⟩ := r3
        simp only [h3, bind_ok, pure_eq_ok, Except.ok.injEq, Prod.mk.injEq] at h
        obtain ⟨rfl, rfl⟩ := h
        simp [hfl, get_append s1 t 3 mv s3 h3]
    · rename_i hfl
      simp only [pure_eq_ok, Except.ok.injEq, Prod.mk.injEq] at h
      obtain ⟨rfl, rfl⟩ := h
      simp [hfl]

theorem indentation_parse_append (order : ArgOrder) (s : BitStream) (t : List Bool)
    (i : Indentation) (s' : BitStream) (h : Indentation.parse order s = .ok (i, s')) :
    Indentation.parse order (s.append t) = .ok (i, s'.append t) := by
  unfold Indentation.parse at h ⊢
  cases ha : Indentation._parse_one s with
  | error e => simp [ha] at h
  | ok ra =>
    obtain ⟨a, s1⟩ := ra
    simp only [ha, bind_ok] at h
    cases hb : Indentation._parse_one s1 with
    | error e => simp [hb] at h
    | ok rb =>
      obtain ⟨b, s2⟩ := rb
      simp only [hb, bind_ok] at h
      cases hc : Indentation._parse_one s2 with
      | error e => simp [hc] at h
      | ok rc =>
        obtain ⟨c, s3⟩ := rc
        simp only [hc, bind_ok] at h
        simp only [parse_one_append _ t _ _ ha, parse_one_append _ t _ _ hb,
          parse_one_append _ t _ _ hc, bind_ok]
        cases order <;> simp at h ⊢ <;> obtain ⟨rfl, rfl⟩ := h <;> exact ⟨rfl, rfl⟩

/-- Eight calls that succeed on a stream succeed with the same results on the stream
followed by more bits, provided each call does. -/
theorem seq8_append {α : Type} (f g : Fin 8 → BitStream → Except Err (α × BitStream))
    (t : List Bool)
    (hfg : ∀ i s a s', f i s = .ok (a, s') → g i (s.append t) = .ok (a, s'.append t))
    (s0 s' : BitStream) (arr : Fin 8 → α) (h : seq8 f s0 = .ok (arr, s')) :
    seq8 g (s0.append t) = .ok (arr, s'.append t) := by
  obtain ⟨st, e0, e8, hst⟩ := seq8_chain f s0 s' arr h
  obtain ⟨arr', s'', he, hR, hs⟩ := seq8_spec g (s0.append t)
    (fun k x => x = (st k).append t) (fun i a => a = arr i)
    (by show s0.append t = (st 0).append t; rw [e0])
    (fun i s hs => ⟨arr i, (st (i.val + 1)).append t, by rw [hs]; exact hfg _ _ _ _ (hst i),
      rfl, rfl⟩)
  have : arr' = arr := funext hR
  rw [he, this, hs, e8]

theorem parseFuel_append (order : ArgOrder) (t : List Bool) (f : Nat) :
    ∀ (s : BitStream) (size : ℚ) (position : Vec3) (c : Cube) (s' : BitStream),
      parseFuel order f s size position = .ok (c, s') →
      parseFuel order f (s.append t) size position = .ok (c, s'.append t) := by
  induction f with
  | zero => intro s size position c s' h; simp [parseFuel] at h
  | succ f ih =>
    intro s size position c s' h
    rw [parseFuel_succ] at h ⊢
    cases hg : s.get 2 with
    | none => simp [hg] at h
    | some r =>
      obtain ⟨tag, s0⟩ := r
      simp only [hg] at h
      simp only [get_append s t 2 tag s0 hg]
      split_ifs at h ⊢ with h0 h1 h2 h3
      · simp only [Except.ok.injEq, Prod.mk.injEq] at h ⊢
        exact ⟨h.1, by rw [h.2]⟩
      · simp only [Except.ok.injEq, Prod.mk.injEq] at h ⊢
        exact ⟨h.1, by rw [h.2]⟩
      · cases hq : seq8 (fun _ st => Indentation.parse order st) s0 with
        | error e => simp [hq] at h
        | ok r =>
          obtain ⟨arr, s8⟩ := r
          simp only [hq, bind_ok, Except.ok.injEq, Prod.mk.injEq] at h
          obtain ⟨rfl, rfl⟩ := h
          rw [seq8_append _ _ t (fun i s a s' hh => indentation_parse_append order s t a s' hh)
            _ _ _ hq]
          rfl
      · cases hq : seq8 (fun i st => parseFuel order f st (size / 2)
            (octantPositions size position i)) s0 with
        | error e => simp [hq] at h
        | ok r =>
          obtain ⟨arr, s8⟩ := r
          simp only [hq, bind_ok, Except.ok.injEq, Prod.mk.injEq] at h
          obtain ⟨rfl, rfl⟩ := h
          rw [seq8_append _ _ t (fun i s a s' hh => ih s _ _ a s' hh) _ _ _ hq]
          rfl

/-- A decode that succeeds on a stream gives the same cube on the stream followed by
more bits, and leaves these bits unread. -/
theorem parse_append (order : ArgOrder) (t : List Bool) (s : BitStream) (size : ℚ)
    (position : Vec3) (c : Cube) (s' : BitStream)
    (h : parse order s size position = .ok (c, s')) :
    parse order (s.append t) size position = .ok (c, s'.append t) := by
  have h1 : parseFuel order ((s.append t).remaining + 1) s size position = .ok (c, s') := by
    rw [parseFuel_fuel_irrelevant order _ s size position
      (by simp [BitStream.append, BitStream.remaining]; omega)]
    exact h
  exact parseFuel_append order t _ s size position c s' h1

theorem ofBytes_take (data : List Nat) (m : Nat) :
    (BitStream.ofBytes (data.take m)).bits = (BitStream.ofBytes data).bits.take (8 * m) := by
  induction data generalizing m with
  | nil => simp [BitStream.ofBytes]
  | cons b bs ih =>
    cases m with
    | zero => simp [BitStream.ofBytes]
    | succ m =>
      have hl : (byteBits b).length = 8 := rfl
      have ih' := ih m
      simp only [BitStream.ofBytes] at ih'
      simp only [BitStream.ofBytes, List.take_succ_cons, List.flatMap_cons, ih']
      have h8 : 8 * (m + 1) - (byteBits b).length = 8 * m := by rw [hl]; omega
      have hb : List.take (8 * (m + 1)) (byteBits b) = byteBits b :=
        List.take_of_length_le (by rw [hl]; omega)
      rw [List.take_append_eq_append_take, h8, hb]

theorem ofBytes_remaining (data : List Nat) :
    (BitStream.ofBytes data).remaining = 8 * data.length := by
  induction data with
  | nil => rfl
  | cons b bs ih =>
    simp only [BitStream.ofBytes, BitStream.remaining, List.flatMap_cons, List.length_append,
      List.length_cons] at ih ⊢
    have hl : (byteBits b).length = 8 := rfl
    omega

/-- C5: `Cube::parse` returns a cube or throws `std::bad_optional_access`, nothing else;
it throws when the tag cannot be read, and whenever a decode succeeds on a stream, the
decode of every prefix of the stream (in bits, or in whole bytes) that is shorter than
what the successful decode has read throws: the missing bits are not replaced by
anything. The empty buffer is such a prefix. -/
theorem parse_truncated (order : ArgOrder) (size : ℚ) (position : Vec3) :
    (∀ (s : BitStream) (e : Err),
      parse order s size position = .error e → e = .bad_optional_access) ∧
    (∀ s : BitStream, s.get 2 = none →
      parse order s size position = .error .bad_optional_access) ∧
    (∀ (bits : List Bool) (c : Cube) (rest : BitStream),
      parse order ⟨bits⟩ size position = .ok (c, rest) →
      ∀ k, k < bits.length - rest.remaining →
        parse order ⟨bits.take k⟩ size position = .error .bad_optional_access) ∧
    (∀ (data : List Nat) (c : Cube) (rest : BitStream),
      parse order (BitStream.ofBytes data) size position = .ok (c, rest) →
      ∀ m, 8 * m < 8 * data.length - rest.remaining →
        parse order (BitStream.ofBytes (data.take m)) size position
          = .error .bad_optional_access) ∧
    parse order (BitStream.ofBytes []) size position = .error .bad_optional_access ∧
    (parseBytes order [] = .error .bad_optional_access) := by
  have hbits : ∀ (bits : List Bool) (c : Cube) (rest : BitStream),
      parse order ⟨bits⟩ size position = .ok (c, rest) →
      ∀ k, k < bits.length - rest.remaining →
        parse order ⟨bits.take k⟩ size position = .error .bad_optional_access := by
    intro bits c rest h k hk
    cases hp : parse order ⟨bits.take k⟩ size position with
    | error e => rw [parse_error order _ size position e hp]
    | ok r =>
      exfalso
      obtain ⟨c', r'⟩ := r
      have happ := parse_append order (bits.drop k) _ size position c' r' hp
      simp only [BitStream.append, List.take_append_drop] at happ
      rw [h] at happ
      simp only [Except.ok.injEq, Prod.mk.injEq] at happ
      obtain ⟨-, rfl⟩ := happ
      simp only [BitStream.remaining, List.length_append, List.length_drop] at hk
      omega
  refine ⟨fun s e h => parse_error order s size position e h, ?_, hbits, ?_, ?_, ?_⟩
  · intro s hs
    simp [parse, parseFuel_succ, hs]
  · intro data c rest h m hm
    have hk := hbits (BitStream.ofBytes data).bits c rest h (8 * m) (by
      have := ofBytes_remaining data
      simp only [BitStream.remaining] at this hm ⊢
      omega)
    rw [← ofBytes_take] at hk
    exact hk
  · rfl
  · rfl

/-- Witness of C5: the indented cube of `bytes_indented` is decoded from 26 bits; the
first three bytes alone make the decode throw. -/
theorem parse_truncated_witness :
    ∃ (c : Cube) (rest : BitStream),
      parse .xyz (BitStream.ofBytes bytes_indented) 1 ⟨0, 0, 0⟩ = .ok (c, rest) ∧
      8 * 3 < 8 * bytes_indented.length - rest.remaining ∧
      parse .xyz (BitStream.ofBytes (bytes_indented.take 3)) 1 ⟨0, 0, 0⟩
        = .error .bad_optional_access := by
  have h : parse .xyz (BitStream.ofBytes bytes_indented) 1 ⟨0, 0, 0⟩
      = .ok (ofIndentations ![⟨0, 0, 0⟩, ⟨0, 0, 0⟩, ⟨0, 0, 0⟩, ⟨0, 0, 0⟩, ⟨0, 0, 0⟩, ⟨0, 0, 0⟩,
        ⟨0, 0, 0⟩, ⟨0, 0, 0⟩] 1 ⟨0, 0, 0⟩, ⟨[false, false, false, false, false, false]⟩) := rfl
  have hlt : 8 * 3 < 8 * bytes_indented.length
      - (BitStream.mk [false, false, false, false, false, false]).remaining := by decide
  exact ⟨_, _, h, hlt, (parse_truncated .xyz 1 ⟨0, 0, 0⟩).2.2.2.1 bytes_indented _ _ h 3 hlt⟩

/-- C6: a successful `Cube::parse(stream, size, position)` that returns an `OCTANTS`
cube has parsed its eight children one after the other in index order, child `i` from
where child `i - 1` stopped, and child `i = 4*bx + 2*by + bz` is the result of parsing
with edge length `size/2` and origin `position + (size/2) * (bx, by, bz)`. -/
theorem parse_octants (order : ArgOrder) (s : BitStream) (size : ℚ) (position : Vec3)
    (c : Cube) (rest : BitStream) (h : parse order s size position = .ok (c, rest))
    (hty : c.type = .OCTANTS) :
    ∃ (o : Fin 8 → Cube) (st : Nat → BitStream),
      c = ofOctants o size position ∧ st 0 = ⟨s.bits.drop 2⟩ ∧ st 8 = rest ∧
      ∀ bx bY bz : Fin 2,
        parse order (st (cornerIndex bx bY bz).val) (size / 2)
            ⟨position.x + size / 2 * (bx.val : ℚ), position.y + size / 2 * (bY.val : ℚ),
              position.z + size / 2 * (bz.val : ℚ)⟩
          = .ok (o (cornerIndex bx bY bz), st ((cornerIndex bx bY bz).val + 1)) := by
  unfold parse at h
  rw [parseFuel_succ] at h
  cases hg : s.get 2 with
  | none => simp [hg] at h
  | some r =>
    obtain ⟨tag, s0⟩ := r
    have hr := get_remaining s 2 tag s0 hg
    obtain ⟨-, -, hs0⟩ := get_eq_some s 2 tag s0 hg
    simp only [hg] at h
    split_ifs at h with h0 h1 h2 h3
    · simp only [Except.ok.injEq, Prod.mk.injEq] at h
      rw [← h.1] at hty
      simp [Cube.type, Cube.data, ofType, ofIndentations, freshData] at hty
    · simp only [Except.ok.injEq, Prod.mk.injEq] at h
      rw [← h.1] at hty
      simp [Cube.type, Cube.data, ofType, ofIndentations, freshData] at hty
    · cases hq : seq8 (fun _ st => Indentation.parse order st) s0 with
      | error e => simp [hq] at h
      | ok r =>
        simp only [hq, bind_ok, Except.ok.injEq, Prod.mk.injEq] at h
        rw [← h.1] at hty
        simp [Cube.type, Cube.data, ofType, ofIndentations, freshData] at hty
    · cases hq : seq8 (fun i st => parseFuel order s.remaining st (size / 2)
          (octantPositions size position i)) s0 with
      | error e => simp [hq] at h
      | ok r =>
        obtain ⟨arr, s8⟩ := r
        simp only [hq, bind_ok, Except.ok.injEq, Prod.mk.injEq] at h
        obtain ⟨rfl, rfl⟩ := h
        obtain ⟨st, e0, e8, hst⟩ := seq8_chain _ _ _ _ hq
        refine ⟨arr, st, rfl, by rw [e0, hs0], e8, ?_⟩
        have hle : ∀ k, k ≤ 8 → (st k).remaining ≤ (st 0).remaining :=
          chain_remaining st (fun i => by
            have := parseFuel_remaining order _ _ _ _ _ _ (hst i)
            omega)
        have hstep : ∀ i : Fin 8, parse order (st i.val) (size / 2)
            (octantPositions size position i) = .ok (arr i, st (i.val + 1)) := by
          intro i
          rw [← parseFuel_fuel_irrelevant order s.remaining (st i.val) _ _ (by
            have := hle i.val (by omega)
            rw [e0] at this
            omega)]
          exact hst i
        intro bx bY bz
        have hpos : octantPositions size position (cornerIndex bx bY bz)
            = ⟨position.x + size / 2 * (bx.val : ℚ), position.y + size / 2 * (bY.val : ℚ),
              position.z + size / 2 * (bz.val : ℚ)⟩ := by
          fin_cases bx <;> fin_cases bY <;> fin_cases bz <;>
            simp [cornerIndex, octantPositions]
        rw [← hpos]
        exact hstep _

/-- Witness of C6: in the decode of `bytes_octants` as a root of size 2 at the origin,
child 0 is parsed at origin (0,0,0) and child 7 at origin (1,1,1), both with size 1. -/
theorem parse_octants_witness :
    ∃ (c : Cube) (rest : BitStream) (o : Fin 8 → Cube) (st : Nat → BitStream),
      parse .xyz (BitStream.ofBytes bytes_octants) 2 ⟨0, 0, 0⟩ = .ok (c, rest) ∧
      c.type = .OCTANTS ∧ c = ofOctants o 2 ⟨0, 0, 0⟩ ∧
      parse .xyz (st 0) 1 ⟨0, 0, 0⟩ = .ok (o 0, st 1) ∧
      parse .xyz (st 7) 1 ⟨1, 1, 1⟩ = .ok (o 7, st 8) := by
  have h : ∃ c rest, parse .xyz (BitStream.ofBytes bytes_octants) 2 ⟨0, 0, 0⟩ = .ok (c, rest) ∧
      c.type = .OCTANTS := ⟨_, _, rfl, rfl⟩
  obtain ⟨c, rest, h, hty⟩ := h
  obtain ⟨o, st, hc, -, -, hch⟩ := parse_octants .xyz _ 2 ⟨0, 0, 0⟩ c rest h hty
  refine ⟨c, rest, o, st, h, hty, hc, ?_, ?_⟩
  · have := hch 0 0 0
    norm_num [cornerIndex] at this
    exact this
  · have := hch 1 1 1
    norm_num [cornerIndex] at this
    exact this

/-! ## The convexity test on the five faces other than z = 1 -/

/-- The diagonals named above are the shared corners of the two triangles of each face,
in the default table and in the table of the replaced triangles. -/
theorem diagonals_shared :
    ∀ f : Fin 6,
      sharedCorners (_full_polygons_of id) f = {(defaultDiagonal f).1, (defaultDiagonal f).2} ∧
      sharedCorners (swappedPolygons id) f = {(otherDiagonal f).1, (otherDiagonal f).2} := by
  decide

/-- On the five faces other than z = 1 the test of `_indented_polygons` compares the sums
of the two diagonals of the face: the triangles that share the other diagonal are
emitted when its sum is strictly smaller, the default triangles when the sum of the
default diagonal is strictly smaller or the sums are equal. -/
theorem indented_polygons_convexity {α : Type} (v : Fin 8 → α) (in_ : Fin 8 → U8Vec3)
    (f : Fin 6) (hf : f ≠ 5) (k : Fin 2) :
    (diagonalSum in_ f (otherDiagonal f) < diagonalSum in_ f (defaultDiagonal f) →
      _indented_polygons_of v in_ (faceSlot f k) = swappedPolygons v (faceSlot f k)) ∧
    (diagonalSum in_ f (defaultDiagonal f) ≤ diagonalSum in_ f (otherDiagonal f) →
      _indented_polygons_of v in_ (faceSlot f k) = _full_polygons_of v (faceSlot f k)) := by
  have hs : swapTest in_ f ↔
      diagonalSum in_ f (otherDiagonal f) < diagonalSum in_ f (defaultDiagonal f) := by
    fin_cases f
    · exact Iff.rfl
    · exact Iff.rfl
    · exact Iff.rfl
    · exact Iff.rfl
    · exact Iff.rfl
    · exact absurd rfl hf
  rw [indented_polygons_of_slot]
  constructor
  · intro h
    rw [if_pos (hs.mpr h)]
  · intro h
    rw [if_neg (fun hc => by have := hs.mp hc; omega)]

/-! ## C13: the range of the magnitudes -/

theorem bitsValue_three_le (l : List Bool) (h : l.length = 3) : bitsValue l ≤ 7 := by
  match l, h with
  | [a, b, c], _ => cases a <;> cases b <;> cases c <;> decide

theorem parse_one_le (s : BitStream) (m : Nat) (s' : BitStream)
    (h : Indentation._parse_one s = .ok (m, s')) : m ≤ 7 := by
  unfold Indentation._parse_one at h
  cases h1 : s.get 1 with
  | none => simp [h1, value] at h
  | some r =>
    obtain ⟨fl, s1⟩ := r
    simp only [h1, value, bind_ok] at h
    split at h
    · cases h3 : s1.get 3 with
      | none => simp [h3] at h
      | some r3 =>
        obtain ⟨mv, s3⟩ := r3
        obtain ⟨hlen, rfl, -⟩ := get_eq_some s1 3 mv s3 h3
        simp only [h3, bind_ok, pure_eq_ok, Except.ok.injEq, Prod.mk.injEq] at h
        obtain ⟨rfl, -⟩ := h
        have := bitsValue_three_le (s1.bits.take 3) (by simp; omega)
        omega
    · simp only [pure_eq_ok, Except.ok.injEq, Prod.mk.injEq] at h
      omega

/-- Every magnitude returned by `Indentation::parse` is at most 7, whatever the order in
which the three arguments are evaluated. -/
theorem indentation_parse_inRange (order : ArgOrder) (s : BitStream) (i : Indentation)
    (s' : BitStream) (h : Indentation.parse order s = .ok (i, s')) : i.InRange := by
  unfold Indentation.parse at h
  cases ha : Indentation._parse_one s with
  | error e => simp [ha] at h
  | ok ra =>
    obtain ⟨a, s1⟩ := ra
    simp only [ha, bind_ok] at h
    cases hb : Indentation._parse_one s1 with
    | error e => simp [hb] at h
    | ok rb =>
      obtain ⟨b, s2⟩ := rb
      simp only [hb, bind_ok] at h
      cases hc : Indentation._parse_one s2 with
      | error e => simp [hc] at h
      | ok rc =>
        obtain ⟨c, s3⟩ := rc
        simp only [hc, bind_ok] at h
        have r1 := parse_one_le _ _ _ ha
        have r2 := parse_one_le _ _ _ hb
        have r3 := parse_one_le _ _ _ hc
        cases order <;> simp at h <;> obtain ⟨rfl, -⟩ := h <;>
          exact ⟨by assumption, by assumption, by assumption⟩

/-- C13, as stated, fails: `set_x(8)` on a default-constructed indentation (8 is a
value of `uint8_t`) leaves the magnitude 8, outside `[0,7]`; so do `set`, `set_y` and
`set_z`. -/
theorem setters_leave_range :
    Indentation.default.InRange ∧
    ¬ (Indentation.default.set_x 8).InRange ∧
    ¬ (Indentation.default.set_y 8).InRange ∧
    ¬ (Indentation.default.set_z 8).InRange ∧
    ¬ (Indentation.default.set (some 8) none none).InRange := by
  decide

/-- C13, amended: a default-constructed indentation has the magnitudes 0, every
indentation returned by `Indentation::parse` has its magnitudes in `[0,7]`, and the
setters store the values they are given unchanged and leave the other magnitudes
alone, so they keep the magnitudes in `[0,7]` exactly when the values given are. -/
theorem magnitudes_inRange :
    Indentation.default = ⟨0, 0, 0⟩ ∧ Indentation.default.InRange ∧
    (∀ (order : ArgOrder) (s s' : BitStream) (i : Indentation),
      Indentation.parse order s = .ok (i, s') → i.InRange) ∧
    (∀ (i : Indentation) (v : Nat),
      i.set_x v = ⟨v, i._y, i._z⟩ ∧ i.set_y v = ⟨i._x, v, i._z⟩ ∧ i.set_z v = ⟨i._x, i._y, v⟩) ∧
    (∀ (i : Indentation) (x y z : Option Nat),
      i.set x y z = ⟨x.getD i._x, y.getD i._y, z.getD i._z⟩) ∧
    (∀ (i : Indentation) (v : Nat), i.InRange →
      ((i.set_x v).InRange ↔ v ≤ 7) ∧ ((i.set_y v).InRange ↔ v ≤ 7) ∧
      ((i.set_z v).InRange ↔ v ≤ 7)) ∧
    (∀ (i : Indentation) (x y z : Option Nat), i.InRange →
      ((i.set x y z).InRange ↔ (∀ v ∈ x, v ≤ 7) ∧ (∀ v ∈ y, v ≤ 7) ∧ (∀ v ∈ z, v ≤ 7))) := by
  refine ⟨rfl, by decide, fun order s s' i h => indentation_parse_inRange order s i s' h,
    fun i v => ⟨rfl, rfl, rfl⟩, ?_, ?_, ?_⟩
  · intro i x y z
    cases x <;> cases y <;> cases z <;> rfl
  · rintro i v ⟨hx, hy, hz⟩
    simp [Indentation.InRange, Indentation.set_x, Indentation.set_y, Indentation.set_z, hx, hy, hz]
  · rintro i x y z ⟨hx, hy, hz⟩
    cases x <;> cases y <;> cases z <;>
      simp [Indentation.InRange, Indentation.set, hx, hy, hz]

/-- Witness of C13: the indentation parsed from `1 101 0 1 011` is in range, and stays
in range under `set_x(7)`. -/
theorem magnitudes_inRange_witness :
    (∃ i s', Indentation.parse .xyz ⟨bits_5_0_3⟩ = .ok (i, s') ∧ i.InRange) ∧
    (Indentation.default.InRange ∧ (Indentation.default.set_x 7).InRange) :=
  ⟨⟨_, _, rfl, magnitudes_inRange.2.2.1 .xyz ⟨bits_5_0_3⟩ _ _ rfl⟩,
    by decide, ((magnitudes_inRange.2.2.2.2.2.1 Indentation.default 7 (by decide)).1).mpr
      (by decide)⟩

/-! ## C16, C18: the choice of the diagonal, and indentations that are all zero -/

theorem indented_polygons_eq (c : Cube) (ind : Fin 8 → Indentation)
    (hty : c.data._type = .INDENTED) (hind : c.data.indentations = some ind) :
    ∃ v : Fin 8 → Vec3, c._vertices = .ok v ∧
      c._indented_polygons = .ok (_indented_polygons_of v (fun i => (ind i).vec)) := by
  have hex : ∃ v : Fin 8 → Vec3, c._vertices = .ok v :=
    ⟨_, by simp [_vertices, hty, _indentation_levels, hind, value]; rfl⟩
  obtain ⟨v, hv⟩ := hex
  refine ⟨v, hv, ?_⟩
  simp [_indented_polygons, hty, hv, _indentation_levels, hind, value]

/-- C16, as stated, fails: with all magnitudes 0 the two diagonals of the face x = 0
have the same sum, so the default diagonal is not the strictly smaller one, and yet
`_indented_polygons` emits the two default triangles (0,2,1) and (1,2,3) of the face,
not the triangles (0,2,3) and (0,3,1) of the other diagonal. -/
theorem indented_polygons_tie_keeps_default :
    diagonalSum (fun i => (indentZero i).vec) 0 (defaultDiagonal 0)
      = diagonalSum (fun i => (indentZero i).vec) 0 (otherDiagonal 0) ∧
    _indented_polygons_of id (fun i => (indentZero i).vec) (faceSlot 0 0) = ![0, 2, 1] ∧
    _indented_polygons_of id (fun i => (indentZero i).vec) (faceSlot 0 1) = ![1, 2, 3] ∧
    _indented_polygons_of id (fun i => (indentZero i).vec) (faceSlot 0 0)
      ≠ swappedPolygons id (faceSlot 0 0) ∧
    _indented_polygons_of id (fun i => (indentZero i).vec) (faceSlot 0 1)
      ≠ swappedPolygons id (faceSlot 0 1) := by
  refine ⟨by decide, by decide, by decide, by decide, by decide⟩

/-- C16, amended: for every `INDENTED` cube and each of the five faces x=0, x=1, y=0,
y=1, z=0, `_indented_polygons` emits the two triangles of the other diagonal exactly
when the corner-sum of the other diagonal is strictly smaller than that of the default
diagonal, and the two default triangles when the default sum is smaller or the two
sums are equal. -/
theorem indented_polygons_diagonal_choice (c : Cube) (ind : Fin 8 → Indentation)
    (hty : c.data._type = .INDENTED) (hind : c.data.indentations = some ind)
    (f : Fin 6) (hf : f ≠ 5) :
    ∃ (v : Fin 8 → Vec3) (polys : Fin 12 → Polygon),
      c._vertices = .ok v ∧ c._indented_polygons = .ok polys ∧
      ∀ k : Fin 2,
        (diagonalSum (fun i => (ind i).vec) f (otherDiagonal f)
            < diagonalSum (fun i => (ind i).vec) f (defaultDiagonal f) →
          polys (faceSlot f k) = swappedPolygons v (faceSlot f k)) ∧
        (diagonalSum (fun i => (ind i).vec) f (defaultDiagonal f)
            ≤ diagonalSum (fun i => (ind i).vec) f (otherDiagonal f) →
          polys (faceSlot f k) = _full_polygons_of v (faceSlot f k)) := by
  obtain ⟨v, hv, hp⟩ := indented_polygons_eq c ind hty hind
  exact ⟨v, _, hv, hp, fun k => indented_polygons_convexity v _ f hf k⟩

/-- Witness of C16: the cube with all magnitudes 0, face x = 0. -/
theorem indented_polygons_diagonal_choice_witness :
    (ofIndentations indentZero 1 ⟨0, 0, 0⟩).data._type = .INDENTED ∧
    (ofIndentations indentZero 1 ⟨0, 0, 0⟩).data.indentations = some indentZero ∧
    (0 : Fin 6) ≠ 5 ∧
    ∃ (v : Fin 8 → Vec3) (polys : Fin 12 → Polygon),
      (ofIndentations indentZero 1 ⟨0, 0, 0⟩)._vertices = .ok v ∧
      (ofIndentations indentZero 1 ⟨0, 0, 0⟩)._indented_polygons = .ok polys ∧
      polys (faceSlot 0 0) = _full_polygons_of v (faceSlot 0 0) := by
  obtain ⟨v, polys, hv, hp, h⟩ :=
    indented_polygons_diagonal_choice (ofIndentations indentZero 1 ⟨0, 0, 0⟩) indentZero
      rfl rfl 0 (by decide)
  exact ⟨rfl, rfl, by decide, v, polys, hv, hp, (h 0).2 (by decide)⟩

/-- C18: an `INDENTED` cube whose eight indentations are (0,0,0) has the vertices of the
`FULL` cube of the same size and position, and `_indented_polygons` returns for it the
twelve triangles that `_full_polygons` returns for the `FULL` cube, in the same order. -/
theorem indented_zero_eq_full (cI cF : Cube) (ind : Fin 8 → Indentation)
    (hI : cI.data._type = .INDENTED) (hind : cI.data.indentations = some ind)
    (hzero : ∀ i, ind i = ⟨0, 0, 0⟩) (hF : cF.data._type = .FULL)
    (hsize : cI.data._size = cF.data._size) (hpos : cI.data._position = cF.data._position) :
    ∃ (v : Fin 8 → Vec3) (polys : Fin 12 → Polygon),
      cI._vertices = .ok v ∧ cF._vertices = .ok v ∧
      cI._indented_polygons = .ok polys ∧ cF._full_polygons = .ok polys := by
  have hvI : cI._vertices = cF._vertices := by
    simp [_vertices, hI, hF, _indentation_levels, hind, value, hzero, Indentation.vec, hsize,
      hpos]
  obtain ⟨v, hv, hp⟩ := indented_polygons_eq cI ind hI hind
  have hpoly : _indented_polygons_of v (fun i => (ind i).vec) = _full_polygons_of v := by
    simp [_indented_polygons_of, hzero, Indentation.vec]
  refine ⟨v, _full_polygons_of v, hv, hvI ▸ hv, by rw [hp, hpoly], ?_⟩
  simp [_full_polygons, hF, ← hvI, hv]

/-- Witness of C18: the cubes of size 2 at (1,1,1). -/
theorem indented_zero_eq_full_witness :
    (ofIndentations indentZero 2 ⟨1, 1, 1⟩).data._type = .INDENTED ∧
    (ofIndentations indentZero 2 ⟨1, 1, 1⟩).data.indentations = some indentZero ∧
    (∀ i, indentZero i = ⟨0, 0, 0⟩) ∧ (ofType .FULL 2 ⟨1, 1, 1⟩).data._type = .FULL ∧
    ∃ (v : Fin 8 → Vec3) (polys : Fin 12 → Polygon),
      (ofIndentations indentZero 2 ⟨1, 1, 1⟩)._vertices = .ok v ∧
      (ofType .FULL 2 ⟨1, 1, 1⟩)._vertices = .ok v ∧
      (ofIndentations indentZero 2 ⟨1, 1, 1⟩)._indented_polygons = .ok polys ∧
      (ofType .FULL 2 ⟨1, 1, 1⟩)._full_polygons = .ok polys :=
  ⟨rfl, rfl, fun _ => rfl, rfl,
    indented_zero_eq_full (ofIndentations indentZero 2 ⟨1, 1, 1⟩) (ofType .FULL 2 ⟨1, 1, 1⟩)
      indentZero rfl rfl (fun _ => rfl) rfl rfl rfl⟩

/-! ## C20: the vertices stay inside the cube -/

theorem faceSlot_surjective : ∀ s : Fin 12, ∃ f k, faceSlot f k = s := by decide

theorem full_polygons_of_natural {α : Type} (v : Fin 8 → α) (s : Fin 12) (j : Fin 3) :
    _full_polygons_of v s j = v (_full_polygons_of id s j) := by
  fin_cases s <;> fin_cases j <;> rfl

theorem swappedPolygons_natural {α : Type} (v : Fin 8 → α) (s : Fin 12) (j : Fin 3) :
    swappedPolygons v s j = v (swappedPolygons id s j) := by
  fin_cases s <;> fin_cases j <;> rfl

/-- The triangles of `_indented_polygons` are triples of entries of `v`, at the indices
that the function chooses on `v = id`. -/
theorem indented_polygons_of_natural {α : Type} (v : Fin 8 → α) (in_ : Fin 8 → U8Vec3)
    (s : Fin 12) (j : Fin 3) :
    _indented_polygons_of v in_ s j = v (_indented_polygons_of id in_ s j) := by
  obtain ⟨f, k, rfl⟩ := faceSlot_surjective s
  rw [indented_polygons_of_slot, indented_polygons_of_slot]
  split
  · exact swappedPolygons_natural v _ j
  · exact full_polygons_of_natural v _ j

/-- Each coordinate of each vertex of an `INDENTED` cube is the near coordinate plus,
or the far coordinate minus, `size/8` times the magnitude of the corner on that axis. -/
theorem vertices_indented_coordinates (c : Cube) (ind : Fin 8 → Indentation)
    (hty : c.data._type = .INDENTED) (hind : c.data.indentations = some ind) :
    ∃ v : Fin 8 → Vec3, c._vertices = .ok v ∧ ∀ i : Fin 8,
      ((v i).x = c.data._position.x + c.data._size / 8 * ((ind i)._x : ℚ) ∨
        (v i).x = c.data._position.x + c.data._size - c.data._size / 8 * ((ind i)._x : ℚ)) ∧
      ((v i).y = c.data._position.y + c.data._size / 8 * ((ind i)._y : ℚ) ∨
        (v i).y = c.data._position.y + c.data._size - c.data._size / 8 * ((ind i)._y : ℚ)) ∧
      ((v i).z = c.data._position.z + c.data._size / 8 * ((ind i)._z : ℚ) ∨
        (v i).z = c.data._position.z + c.data._size - c.data._size / 8 * ((ind i)._z : ℚ)) := by
  refine ⟨_, by simp [_vertices, hty, _indentation_levels, hind, value]; rfl, ?_⟩
  intro i
  fin_cases i <;> simp [Indentation.vec, MAX_INDENTATION]

theorem displaced_mem_range (p S : ℚ) (m : Nat) (hS : 0 ≤ S) (hm : m ≤ 7) (q : ℚ)
    (h : q = p + S / 8 * (m : ℚ) ∨ q = p + S - S / 8 * (m : ℚ)) : p ≤ q ∧ q ≤ p + S := by
  have h0 : (0 : ℚ) ≤ (m : ℚ) := Nat.cast_nonneg m
  have h7 : (m : ℚ) ≤ 7 := by exact_mod_cast hm
  have h1 : 0 ≤ S / 8 * (m : ℚ) := mul_nonneg (by linarith) h0
  have h2 : S / 8 * (m : ℚ) ≤ S := by nlinarith
  rcases h with rfl | rfl <;> constructor <;> linarith

/-- C20: for an `INDENTED` cube with edge length `S ≥ 0`, origin `p` and all magnitudes
in `[0,7]`, every coordinate of every vertex returned by `_vertices` lies in
`[p_a, p_a + S]` on its axis, and so does every corner of each of the twelve triangles
returned by `_indented_polygons`. -/
theorem vertices_in_cube (c : Cube) (ind : Fin 8 → Indentation)
    (hty : c.data._type = .INDENTED) (hind : c.data.indentations = some ind)
    (hS : 0 ≤ c.data._size) (hr : ∀ i, (ind i).InRange) :
    ∃ (v : Fin 8 → Vec3) (polys : Fin 12 → Polygon),
      c._vertices = .ok v ∧ c._indented_polygons = .ok polys ∧
      (∀ i, (v i).InCube c.data._position c.data._size) ∧
      (∀ s j, (polys s j).InCube c.data._position c.data._size) := by
  obtain ⟨v, hv, hc⟩ := vertices_indented_coordinates c ind hty hind
  have hin : ∀ i, (v i).InCube c.data._position c.data._size := by
    intro i
    obtain ⟨hx, hy, hz⟩ := hc i
    obtain ⟨rx, ry, rz⟩ := hr i
    have bx := displaced_mem_range _ _ _ hS rx _ hx
    have bY := displaced_mem_range _ _ _ hS ry _ hy
    have bz := displaced_mem_range _ _ _ hS rz _ hz
    exact ⟨bx.1, bx.2, bY.1, bY.2, bz.1, bz.2⟩
  refine ⟨v, _indented_polygons_of v (fun i => (ind i).vec), hv, ?_, hin, ?_⟩
  · simp [_indented_polygons, hty, hv, _indentation_levels, hind, value]
  · intro s j
    rw [indented_polygons_of_natural]
    exact hin _

/-- Witness of C20: the cube of size 1 at the origin whose corner 5 is indented by 1 on
the z axis. -/
theorem vertices_in_cube_witness :
    (ofIndentations indentZ5 1 ⟨0, 0, 0⟩).data._type = .INDENTED ∧
    (ofIndentations indentZ5 1 ⟨0, 0, 0⟩).data.indentations = some indentZ5 ∧
    0 ≤ (ofIndentations indentZ5 1 ⟨0, 0, 0⟩).data._size ∧ (∀ i, (indentZ5 i).InRange) ∧
    ∃ (v : Fin 8 → Vec3) (polys : Fin 12 → Polygon),
      (ofIndentations indentZ5 1 ⟨0, 0, 0⟩)._vertices = .ok v ∧
      (ofIndentations indentZ5 1 ⟨0, 0, 0⟩)._indented_polygons = .ok polys ∧
      (∀ i, (v i).InCube ⟨0, 0, 0⟩ 1) ∧ (∀ s j, (polys s j).InCube ⟨0, 0, 0⟩ 1) :=
  ⟨rfl, rfl, by simp [ofIndentations, freshData, Cube.data], by decide,
    vertices_in_cube (ofIndentations indentZ5 1 ⟨0, 0, 0⟩) indentZ5 rfl rfl
      (by simp [ofIndentations, freshData, Cube.data]) (by decide)⟩

/-! ## C19: the winding of the triangles -/

theorem cornerPositions_eq (S : ℚ) (p : Vec3) (i : Fin 8) :
    cornerPositions S p i = ⟨p.x + S * (cornerBit 0 i : ℚ), p.y + S * (cornerBit 1 i : ℚ),
      p.z + S * (cornerBit 2 i : ℚ)⟩ := by
  fin_cases i <;> simp [cornerPositions, cornerBit]

theorem signedVolume_corners (S : ℚ) (p : Vec3) (t : Fin 3 → Fin 8) :
    signedVolume (cubeCentre S p) (fun j => cornerPositions S p (t j))
      = S ^ 3 / 8 * (cornerVolume (t 0) (t 1) (t 2) : ℚ) := by
  simp only [signedVolume, det3, Vec3.sub, cubeCentre, cornerPositions_eq, cornerVolume]
  push_cast
  ring

theorem cornerVolume_full :
    ∀ s : Fin 12, cornerVolume (_full_polygons_of id s 0) (_full_polygons_of id s 1)
      (_full_polygons_of id s 2) = -4 := by
  decide

theorem cornerVolume_swapped :
    ∀ s : Fin 12, cornerVolume (swappedPolygons id s 0) (swappedPolygons id s 1)
      (swappedPolygons id s 2) = -4 := by
  decide

theorem signedVolume_full (S : ℚ) (p : Vec3) (s : Fin 12) :
    signedVolume (cubeCentre S p) (_full_polygons_of (cornerPositions S p) s) = -(S ^ 3 / 2) := by
  have e : _full_polygons_of (cornerPositions S p) s
      = fun j => cornerPositions S p (_full_polygons_of id s j) :=
    funext fun j => full_polygons_of_natural _ s j
  rw [e, signedVolume_corners, cornerVolume_full]
  push_cast
  ring

theorem signedVolume_swapped (S : ℚ) (p : Vec3) (s : Fin 12) :
    signedVolume (cubeCentre S p) (swappedPolygons (cornerPositions S p) s) = -(S ^ 3 / 2) := by
  have e : swappedPolygons (cornerPositions S p) s
      = fun j => cornerPositions S p (swappedPolygons id s j) :=
    funext fun j => swappedPolygons_natural _ s j
  rw [e, signedVolume_corners, cornerVolume_swapped]
  push_cast
  ring

/-- C19: for every array of indentation levels, each of the twelve triangles that
`_indented_polygons` chooses, placed on the undisplaced corners of a cube of edge length
`S > 0`, has the signed volume `-S^3/2` with respect to the centre of the cube: the same
non-zero sign for all twelve, whatever the diagonal chosen on each face. -/
theorem winding_uniform (S : ℚ) (p : Vec3) (hS : 0 < S) (in_ : Fin 8 → U8Vec3) :
    (ofType .FULL S p)._vertices = .ok (cornerPositions S p) ∧
    ∀ s : Fin 12,
      signedVolume (cubeCentre S p) (_indented_polygons_of (cornerPositions S p) in_ s)
        = -(S ^ 3 / 2) ∧
      signedVolume (cubeCentre S p) (_indented_polygons_of (cornerPositions S p) in_ s) < 0 := by
  refine ⟨rfl, fun s => ?_⟩
  have h : signedVolume (cubeCentre S p) (_indented_polygons_of (cornerPositions S p) in_ s)
      = -(S ^ 3 / 2) := by
    obtain ⟨f, k, rfl⟩ := faceSlot_surjective s
    rw [indented_polygons_of_slot]
    split
    · exact signedVolume_swapped S p _
    · exact signedVolume_full S p _
  refine ⟨h, ?_⟩
  rw [h]
  have : 0 < S ^ 3 := pow_pos hS 3
  linarith

/-- Witness of C19: the unit cube at the origin with corner 6 indented on z, first
triangle of the face z = 1 (which is then emitted with the other diagonal). -/
theorem winding_uniform_witness :
    (0 : ℚ) < 1 ∧
    signedVolume (cubeCentre 1 ⟨0, 0, 0⟩)
      (_indented_polygons_of (cornerPositions 1 ⟨0, 0, 0⟩) (fun i => (indentZ6 i).vec) 10) < 0 :=
  ⟨by norm_num, ((winding_uniform 1 ⟨0, 0, 0⟩ (by norm_num) _).2 10).2⟩

/-! ## C15: the bounding box of a transformed box -/

theorem scaled_min_choice (t a b : ℚ) :
    ∃ bit : Bool, Min.min (t * a) (t * b) = (if bit then b else a) * t := by
  rcases le_total (t * a) (t * b) with h | h
  · exact ⟨false, by rw [min_eq_left h]; simp [mul_comm]⟩
  · exact ⟨true, by rw [min_eq_right h]; simp [mul_comm]⟩

theorem scaled_max_choice (t a b : ℚ) :
    ∃ bit : Bool, Max.max (t * a) (t * b) = (if bit then b else a) * t := by
  rcases le_total (t * a) (t * b) with h | h
  · exact ⟨true, by rw [max_eq_right h]; simp [mul_comm]⟩
  · exact ⟨false, by rw [max_eq_left h]; simp [mul_comm]⟩

theorem min_le_choice (t a b : ℚ) (bit : Bool) :
    Min.min (t * a) (t * b) ≤ (if bit then b else a) * t := by
  cases bit
  · simp [mul_comm]
  · simp [mul_comm]

theorem choice_le_max (t a b : ℚ) (bit : Bool) :
    (if bit then b else a) * t ≤ Max.max (t * a) (t * b) := by
  cases bit
  · simp [mul_comm]
  · simp [mul_comm]

/-- C15: over exact arithmetic each component of the `min` (resp. `max`) returned by
`BoundingBox::get_aabb(m)` is the minimum (resp. maximum) of that component over the
images `m[3] + c.x*m[0] + c.y*m[1] + c.z*m[2]` of the eight corners `c` of the box: it is
below (resp. above) the component of every image and equal to that of one of them. -/
theorem get_aabb_is_bounding_box (b : BoundingBox) (m : Mat4) (axis : Fin 3) :
    (∀ bx bY bz : Bool, ((b.get_aabb m).min).component axis
      ≤ (m.transform (b.corner bx bY bz)).component axis) ∧
    (∃ bx bY bz : Bool, ((b.get_aabb m).min).component axis
      = (m.transform (b.corner bx bY bz)).component axis) ∧
    (∀ bx bY bz : Bool, (m.transform (b.corner bx bY bz)).component axis
      ≤ ((b.get_aabb m).max).component axis) ∧
    (∃ bx bY bz : Bool, ((b.get_aabb m).max).component axis
      = (m.transform (b.corner bx bY bz)).component axis) := by
  fin_cases axis
  · refine ⟨fun bx bY bz => ?_, ?_, fun bx bY bz => ?_, ?_⟩
    · have h0 := min_le_choice (m 0).x b.min.x b.max.x bx
      have h1 := min_le_choice (m 1).x b.min.y b.max.y bY
      have h2 := min_le_choice (m 2).x b.min.z b.max.z bz
      simp only [BoundingBox.get_aabb, Vec3.add, Vec3.min, Vec3.scale, Vec4.toVec3,
        Mat4.transform, BoundingBox.corner, Vec3.component]
      linarith
    · obtain ⟨bx, h0⟩ := scaled_min_choice (m 0).x b.min.x b.max.x
      obtain ⟨bY, h1⟩ := scaled_min_choice (m 1).x b.min.y b.max.y
      obtain ⟨bz, h2⟩ := scaled_min_choice (m 2).x b.min.z b.max.z
      refine ⟨bx, bY, bz, ?_⟩
      simp only [BoundingBox.get_aabb, Vec3.add, Vec3.min, Vec3.scale, Vec4.toVec3,
        Mat4.transform, BoundingBox.corner, Vec3.component]
      linarith
    · have h0 := choice_le_max (m 0).x b.min.x b.max.x bx
      have h1 := choice_le_max (m 1).x b.min.y b.max.y bY
      have h2 := choice_le_max (m 2).x b.min.z b.max.z bz
      simp only [BoundingBox.get_aabb, Vec3.add, Vec3.max, Vec3.scale, Vec4.toVec3,
        Mat4.transform, BoundingBox.corner, Vec3.component]
      linarith
    · obtain ⟨bx, h0⟩ := scaled_max_choice (m 0).x b.min.x b.max.x
      obtain ⟨bY, h1⟩ := scaled_max_choice (m 1).x b.min.y b.max.y
      obtain ⟨bz, h2⟩ := scaled_max_choice (m 2).x b.min.z b.max.z
      refine ⟨bx, bY, bz, ?_⟩
      simp only [BoundingBox.get_aabb, Vec3.add, Vec3.max, Vec3.scale, Vec4.toVec3,
        Mat4.transform, BoundingBox.corner, Vec3.component]
      linarith
  · refine ⟨fun bx bY bz => ?_, ?_, fun bx bY bz => ?_, ?_⟩
    · have h0 := min_le_choice (m 0).y b.min.x b.max.x bx
      have h1 := min_le_choice (m 1).y b.min.y b.max.y bY
      have h2 := min_le_choice (m 2).y b.min.z b.max.z bz
      simp only [BoundingBox.get_aabb, Vec3.add, Vec3.min, Vec3.scale, Vec4.toVec3,
        Mat4.transform, BoundingBox.corner, Vec3.component]
      linarith
    · obtain ⟨bx, h0⟩ := scaled_min_choice (m 0).y b.min.x b.max.x
      obtain ⟨bY, h1⟩ := scaled_min_choice (m 1).y b.min.y b.max.y
      obtain ⟨bz, h2⟩ := scaled_min_choice (m 2).y b.min.z b.max.z
      refine ⟨bx, bY, bz, ?_⟩
      simp only [BoundingBox.get_aabb, Vec3.add, Vec3.min, Vec3.scale, Vec4.toVec3,
        Mat4.transform, BoundingBox.corner, Vec3.component]
      linarith
    · have h0 := choice_le_max (m 0).y b.min.x b.max.x bx
      have h1 := choice_le_max (m 1).y b.min.y b.max.y bY
      have h2 := choice_le_max (m 2).y b.min.z b.max.z bz
      simp only [BoundingBox.get_aabb, Vec3.add, Vec3.max, Vec3.scale, Vec4.toVec3,
        Mat4.transform, BoundingBox.corner, Vec3.component]
      linarith
    · obtain ⟨bx, h0⟩ := scaled_max_choice (m 0).y b.min.x b.max.x
      obtain ⟨bY, h1⟩ := scaled_max_choice (m 1).y b.min.y b.max.y
      obtain ⟨bz, h2⟩ := scaled_max_choice (m 2).y b.min.z b.max.z
      refine ⟨bx, bY, bz, ?_⟩
      simp only [BoundingBox.get_aabb, Vec3.add, Vec3.max, Vec3.scale, Vec4.toVec3,
        Mat4.transform, BoundingBox.corner, Vec3.component]
      linarith
  · refine ⟨fun bx bY bz => ?_, ?_, fun bx bY bz => ?_, ?_⟩
    · have h0 := min_le_choice (m 0).z b.min.x b.max.x bx
      have h1 := min_le_choice (m 1).z b.min.y b.max.y bY
      have h2 := min_le_choice (m 2).z b.min.z b.max.z bz
      simp only [BoundingBox.get_aabb, Vec3.add, Vec3.min, Vec3.scale, Vec4.toVec3,
        Mat4.transform, BoundingBox.corner, Vec3.component]
      linarith
    · obtain ⟨bx, h0⟩ := scaled_min_choice (m 0).z b.min.x b.max.x
      obtain ⟨bY, h1⟩ := scaled_min_choice (m 1).z b.min.y b.max.y
      obtain ⟨bz, h2⟩ := scaled_min_choice (m 2).z b.min.z b.max.z
      refine ⟨bx, bY, bz, ?_⟩
      simp only [BoundingBox.get_aabb, Vec3.add, Vec3.min, Vec3.scale, Vec4.toVec3,
        Mat4.transform, BoundingBox.corner, Vec3.component]
      linarith
    · have h0 := choice_le_max (m 0).z b.min.x b.max.x bx
      have h1 := choice_le_max (m 1).z b.min.y b.max.y bY
      have h2 := choice_le_max (m 2).z b.min.z b.max.z bz
      simp only [BoundingBox.get_aabb, Vec3.add, Vec3.max, Vec3.scale, Vec4.toVec3,
        Mat4.transform, BoundingBox.corner, Vec3.component]
      linarith
    · obtain ⟨bx, h0⟩ := scaled_max_choice (m 0).z b.min.x b.max.x
      obtain ⟨bY, h1⟩ := scaled_max_choice (m 1).z b.min.y b.max.y
      obtain ⟨bz, h2⟩ := scaled_max_choice (m 2).z b.min.z b.max.z
      refine ⟨bx, bY, bz, ?_⟩
      simp only [BoundingBox.get_aabb, Vec3.add, Vec3.max, Vec3.scale, Vec4.toVec3,
        Mat4.transform, BoundingBox.corner, Vec3.component]
      linarith

/-! ## C14: which payload a node carries -/

theorem payloadInv_iff (c : Cube) :
    c.PayloadInv ↔ (c.data.indentations.isSome ↔ c.data._type = .INDENTED) ∧
      (c.octants.isSome ↔ c.data._type = .OCTANTS) ∧
      ∀ o, c.octants = some o → ∀ i, (o i).PayloadInv := by
  cases c with
  | noOctants d => simp [Cube.PayloadInv, Cube.data, Cube.octants]
  | withOctants d o => simp [Cube.PayloadInv, Cube.data, Cube.octants]

theorem parseFuel_payloadInv (order : ArgOrder) (f : Nat) :
    ∀ (s : BitStream) (size : ℚ) (position : Vec3) (c : Cube) (s' : BitStream),
      parseFuel order f s size position = .ok (c, s') → c.PayloadInv := by
  induction f with
  | zero => intro s size position c s' h; simp [parseFuel] at h
  | succ f ih =>
    intro s size position c s' h
    rw [parseFuel_succ] at h
    cases hg : s.get 2 with
    | none => simp [hg] at h
    | some r =>
      obtain ⟨tag, s0⟩ := r
      simp only [hg] at h
      split_ifs at h with h0 h1 h2 h3
      · simp only [Except.ok.injEq, Prod.mk.injEq] at h
        obtain ⟨rfl, -⟩ := h
        simp [Cube.PayloadInv, ofType, freshData]
      · simp only [Except.ok.injEq, Prod.mk.injEq] at h
        obtain ⟨rfl, -⟩ := h
        simp [Cube.PayloadInv, ofType, freshData]
      · cases hq : seq8 (fun _ st => Indentation.parse order st) s0 with
        | error e => simp [hq] at h
        | ok r =>
          simp only [hq, bind_ok, Except.ok.injEq, Prod.mk.injEq] at h
          obtain ⟨rfl, -⟩ := h
          simp [Cube.PayloadInv, ofIndentations, freshData]
      · cases hq : seq8 (fun i st => parseFuel order f st (size / 2)
            (octantPositions size position i)) s0 with
        | error e => simp [hq] at h
        | ok r =>
          obtain ⟨arr, s8⟩ := r
          simp only [hq, bind_ok, Except.ok.injEq, Prod.mk.injEq] at h
          obtain ⟨rfl, -⟩ := h
          obtain ⟨st, -, -, hst⟩ := seq8_chain _ _ _ _ hq
          have hch : ∀ i, (arr i).PayloadInv := fun i => ih _ _ _ _ _ (hst i)
          simp [Cube.PayloadInv, ofOctants, freshData, hch]

/-- C14, as stated, fails: the constructor `Cube(CubeType, float, const glm::vec3 &)`
called with `INDENTED` builds an `INDENTED` node without indentations, and called with
`OCTANTS` an `OCTANTS` node without octants. -/
theorem ofType_without_payload :
    (ofType .INDENTED 1 ⟨0, 0, 0⟩).type = .INDENTED ∧
    (ofType .INDENTED 1 ⟨0, 0, 0⟩).data.indentations = none ∧
    ¬ (ofType .INDENTED 1 ⟨0, 0, 0⟩).PayloadInv ∧
    (ofType .OCTANTS 1 ⟨0, 0, 0⟩).type = .OCTANTS ∧
    (ofType .OCTANTS 1 ⟨0, 0, 0⟩).octants = none ∧
    ¬ (ofType .OCTANTS 1 ⟨0, 0, 0⟩).PayloadInv := by
  refine ⟨rfl, rfl, ?_, rfl, rfl, ?_⟩ <;> simp [Cube.PayloadInv, ofType, freshData]

/-- C14, amended: the payload invariant (indentations present iff `INDENTED`, octants
present iff `OCTANTS`, in the node and in every node below it) holds for a cube built by
the type constructor exactly when the type is `EMPTY` or `FULL`, for every cube built
by the indentations constructor, for a cube built by the octants constructor exactly
when it holds for the eight children, and for every cube returned by `Cube::parse`. -/
theorem payload_invariant :
    (∀ (c : Cube), c.PayloadInv ↔
      (c.data.indentations.isSome ↔ c.data._type = .INDENTED) ∧
      (c.octants.isSome ↔ c.data._type = .OCTANTS) ∧
      ∀ o, c.octants = some o → ∀ i, (o i).PayloadInv) ∧
    (∀ (t : CubeType) (size : ℚ) (position : Vec3),
      (ofType t size position).PayloadInv ↔ (t = .EMPTY ∨ t = .FULL)) ∧
    (∀ (ind : Fin 8 → Indentation) (size : ℚ) (position : Vec3),
      (ofIndentations ind size position).PayloadInv) ∧
    (∀ (o : Fin 8 → Cube) (size : ℚ) (position : Vec3),
      (ofOctants o size position).PayloadInv ↔ ∀ i, (o i).PayloadInv) ∧
    (∀ (order : ArgOrder) (s s' : BitStream) (size : ℚ) (position : Vec3) (c : Cube),
      parse order s size position = .ok (c, s') → c.PayloadInv) := by
  refine ⟨payloadInv_iff, ?_, ?_, ?_, ?_⟩
  · intro t size position
    cases t <;> simp [Cube.PayloadInv, ofType, freshData]
  · intro ind size position
    simp [Cube.PayloadInv, ofIndentations, freshData]
  · intro o size position
    simp [Cube.PayloadInv, ofOctants, freshData]
  · intro order s s' size position c h
    exact parseFuel_payloadInv order _ s size position c s' h

/-- Witness of C14: the cube decoded from `bytes_octants` satisfies the invariant. -/
theorem payload_invariant_witness :
    ∃ (c : Cube) (rest : BitStream),
      parse .xyz (BitStream.ofBytes bytes_octants) 2 ⟨0, 0, 0⟩ = .ok (c, rest) ∧
      c.PayloadInv :=
  ⟨_, _, rfl, payload_invariant.2.2.2.2 .xyz (BitStream.ofBytes bytes_octants) _ 2 ⟨0, 0, 0⟩ _
    rfl⟩

/-! ## C17: the decoder is total -/

theorem psum_eq_sum (w : Fin 8 → Nat) : psum w 8 = ∑ i : Fin 8, w i := by
  simp [psum, Fin.sum_univ_eight]

theorem chain_consumed (st : Nat → BitStream) (w : Fin 8 → Nat)
    (h : ∀ i : Fin 8, w i + (st (i.val + 1)).remaining ≤ (st i.val).remaining) (k : Nat)
    (hk : k ≤ 8) : psum w k + (st k).remaining ≤ (st 0).remaining := by
  induction k with
  | zero => simp [psum]
  | succ k ih =>
    have h1 := h ⟨k, by omega⟩
    have h2 := ih (by omega)
    have hk' : k < 8 := by omega
    simp only [psum, hk', dite_true] at h1 ⊢
    omega

/-- Every node that a successful `Cube::parse` builds has cost at least the two bits
of its tag. -/
theorem parseFuel_nodes (order : ArgOrder) (f : Nat) :
    ∀ (s : BitStream) (size : ℚ) (position : Vec3) (c : Cube) (s' : BitStream),
      parseFuel order f s size position = .ok (c, s') →
      2 * c.nodes + s'.remaining ≤ s.remaining := by
  induction f with
  | zero => intro s size position c s' h; simp [parseFuel] at h
  | succ f ih =>
    intro s size position c s' h
    have hrem := parseFuel_remaining order _ s size position c s' h
    rw [parseFuel_succ] at h
    cases hg : s.get 2 with
    | none => simp [hg] at h
    | some r =>
      obtain ⟨tag, s0⟩ := r
      have hr := get_remaining s 2 tag s0 hg
      simp only [hg] at h
      split_ifs at h with h0 h1 h2 h3
      · simp only [Except.ok.injEq, Prod.mk.injEq] at h
        obtain ⟨rfl, rfl⟩ := h
        simp only [ofType, Cube.nodes]
        omega
      · simp only [Except.ok.injEq, Prod.mk.injEq] at h
        obtain ⟨rfl, rfl⟩ := h
        simp only [ofType, Cube.nodes]
        omega
      · cases hq : seq8 (fun _ st => Indentation.parse order st) s0 with
        | error e => simp [hq] at h
        | ok r =>
          simp only [hq, bind_ok, Except.ok.injEq, Prod.mk.injEq] at h
          obtain ⟨rfl, rfl⟩ := h
          simp only [ofIndentations, Cube.nodes]
          omega
      · cases hq : seq8 (fun i st => parseFuel order f st (size / 2)
            (octantPositions size position i)) s0 with
        | error e => simp [hq] at h
        | ok r =>
          obtain ⟨arr, s8⟩ := r
          simp only [hq, bind_ok, Except.ok.injEq, Prod.mk.injEq] at h
          obtain ⟨rfl, rfl⟩ := h
          obtain ⟨st, e0, e8, hst⟩ := seq8_chain _ _ _ _ hq
          have hsum := chain_consumed st (fun i => 2 * (arr i).nodes)
            (fun i => ih _ _ _ _ _ (hst i)) 8 (Nat.le_refl _)
          rw [psum_eq_sum, e0, e8, ← Finset.mul_sum] at hsum
          simp only [ofOctants, Cube.nodes]
          omega

/-- C17: `Cube::parse` is total: on every stream it returns a cube or throws
`std::bad_optional_access`, and any recursion budget above the number of remaining bits
gives this same result; a call that succeeds has read at least the two bits of its tag,
the children of an `OCTANTS` node are parsed on streams that are at least two bits
shorter than the stream of their parent, and the tree returned has at most
`(bits read) / 2` nodes. -/
theorem parse_total (order : ArgOrder) (s : BitStream) (size : ℚ) (position : Vec3) :
    ((∃ c s', parse order s size position = .ok (c, s')) ∨
      parse order s size position = .error .bad_optional_access) ∧
    (∀ f, s.remaining < f →
      parseFuel order f s size position = parse order s size position) ∧
    (∀ c s', parse order s size position = .ok (c, s') →
      s'.remaining + 2 ≤ s.remaining ∧ 2 * c.nodes + s'.remaining ≤ s.remaining ∧
      c.nodes ≤ s.remaining / 2) ∧
    (∀ (o : Fin 8 → Cube) (s' : BitStream),
      parse order s size position = .ok (ofOctants o size position, s') →
      ∃ st : Nat → BitStream, st 0 = ⟨s.bits.drop 2⟩ ∧ st 8 = s' ∧
        ∀ i : Fin 8, (st i.val).remaining + 2 ≤ s.remaining ∧
          parse order (st i.val) (size / 2) (octantPositions size position i)
            = .ok (o i, st (i.val + 1))) := by
  refine ⟨?_, fun f hf => parseFuel_fuel_irrelevant order f s size position hf, ?_, ?_⟩
  · cases h : parse order s size position with
    | error e => right; rw [parse_error order s size position e h]
    | ok r => left; exact ⟨r.1, r.2, rfl⟩
  · intro c s' h
    have h1 := parse_remaining order s size position c s' h
    have h2 := parseFuel_nodes order _ s size position c s' h
    exact ⟨h1, h2, by omega⟩
  · intro o s' h
    unfold parse at h
    rw [parseFuel_succ] at h
    cases hg : s.get 2 with
    | none => simp [hg] at h
    | some r =>
      obtain ⟨tag, s0⟩ := r
      have hr := get_remaining s 2 tag s0 hg
      obtain ⟨-, -, hs0⟩ := get_eq_some s 2 tag s0 hg
      simp only [hg] at h
      split_ifs at h with h0 h1 h2 h3
      · simp [ofType, ofOctants] at h
      · simp [ofType, ofOctants] at h
      · cases hq : seq8 (fun _ st => Indentation.parse order st) s0 with
        | error e => simp [hq] at h
        | ok r => simp [hq, ofIndentations, ofOctants] at h
      · cases hq : seq8 (fun i st => parseFuel order s.remaining st (size / 2)
            (octantPositions size position i)) s0 with
        | error e => simp [hq] at h
        | ok r =>
          obtain ⟨arr, s8⟩ := r
          simp only [hq, bind_ok, Except.ok.injEq, Prod.mk.injEq, ofOctants,
            Cube.withOctants.injEq, true_and] at h
          obtain ⟨rfl, rfl⟩ := h
          obtain ⟨st, e0, e8, hst⟩ := seq8_chain _ _ _ _ hq
          have hle : ∀ k, k ≤ 8 → (st k).remaining ≤ (st 0).remaining :=
            chain_remaining st (fun i => by
              have := parseFuel_remaining order _ _ _ _ _ _ (hst i)
              omega)
          refine ⟨st, by rw [e0, hs0], e8, fun i => ?_⟩
          have hi := hle i.val (by omega)
          rw [e0] at hi
          refine ⟨by omega, ?_⟩
          rw [← parseFuel_fuel_irrelevant order s.remaining (st i.val) _ _ (by omega)]
          exact hst i

/-- Witness of C17: the decode of `bytes_full_octants` builds nine nodes from 18 of the
24 bits. -/
theorem parse_total_witness :
    ∃ (c : Cube) (rest : BitStream),
      parse .xyz (BitStream.ofBytes bytes_full_octants) 1 ⟨0, 0, 0⟩ = .ok (c, rest) ∧
      c.nodes = 9 ∧ rest.remaining = 6 ∧
      c.nodes ≤ (BitStream.ofBytes bytes_full_octants).remaining / 2 := by
  have h : ∃ c rest, parse .xyz (BitStream.ofBytes bytes_full_octants) 1 ⟨0, 0, 0⟩
      = .ok (c, rest) ∧ c.nodes = 9 ∧ rest.remaining = 6 := ⟨_, _, rfl, by decide, rfl⟩
  obtain ⟨c, rest, h, hn, hr⟩ := h
  exact ⟨c, rest, h, hn, hr,
    ((parse_total .xyz (BitStream.ofBytes bytes_full_octants) 1 ⟨0, 0, 0⟩).2.2.1 c rest h).2.2⟩

/-! ## C11: the cache of a leaf and its invalidation -/

theorem withData_data (c : Cube) : c.withData c.data = c := by
  cases c <;> rfl

theorem data_withData (c : Cube) (d : CubeData) : (c.withData d).data = d := by
  cases c <;> rfl

theorem leaves_leaf (c : Cube) (h : c.data._type = .FULL ∨ c.data._type = .INDENTED) :
    c.leaves = .ok 1 := by
  cases c with
  | noOctants d => rcases h with h | h <;> simp [Cube.data] at h <;> simp [leaves, h]
  | withOctants d o => rcases h with h | h <;> simp [Cube.data] at h <;> simp [leaves, h]

theorem all_polygons_leaf (c : Cube) (h : c.data._type = .FULL ∨ c.data._type = .INDENTED)
    (b : PolyBuf) : c._all_polygons b = c._emit_polygons b := by
  cases c with
  | noOctants d => rcases h with h | h <;> simp [Cube.data] at h <;> simp [_all_polygons, h]
  | withOctants d o =>
    rcases h with h | h <;> simp [Cube.data] at h <;> simp [_all_polygons, h]

theorem writeAll_fresh (cache : Fin 12 → Polygon) :
    PolyBuf.writeAll cache ⟨List.replicate (1 * 12) Polygon.zero, 0⟩
      = .ok ⟨List.ofFn cache, 12⟩ := by
  rw [writeAll_eq _ _ _ (by simp), splice_all _ _ (by simp)]

/-- `polygons()` on a leaf whose cache is valid returns the cache and leaves the leaf as
it is. -/
theorem polygons_leaf_valid (c : Cube)
    (h : c.data._type = .FULL ∨ c.data._type = .INDENTED)
    (hv : c.data._valid_cache = true) :
    c.polygons = .ok (c, List.ofFn c.data._polygons_cache) := by
  unfold polygons
  rw [leaves_leaf c h]
  simp only [bind_ok, pure_eq_ok]
  rw [all_polygons_leaf c h]
  unfold _emit_polygons
  simp only [hv, not_true_eq_false, if_false, pure_eq_ok, bind_ok]
  rw [writeAll_fresh]
  simp only [bind_ok, withData_data]

/-- `polygons()` on an `INDENTED` leaf whose cache is not valid returns the triangles of
`_indented_polygons` and stores them in the cache. -/
theorem polygons_indented_invalid (c : Cube) (hty : c.data._type = .INDENTED)
    (hv : c.data._valid_cache = false) (P : Fin 12 → Polygon)
    (hP : c._indented_polygons = .ok P) :
    c.polygons = .ok (c.withData { c.data with _polygons_cache := P, _valid_cache := true },
      List.ofFn P) := by
  unfold polygons
  rw [leaves_leaf c (Or.inr hty)]
  simp only [bind_ok, pure_eq_ok]
  rw [all_polygons_leaf c (Or.inr hty)]
  unfold _emit_polygons
  simp only [hv, hty, hP, Bool.false_eq_true, not_false_eq_true, if_true, reduceCtorEq,
    if_false, pure_eq_ok, bind_ok]
  rw [writeAll_fresh]
  simp only [bind_ok]

theorem vertices_withData (c : Cube) (d : CubeData) (h1 : d._type = c.data._type)
    (h2 : d._size = c.data._size) (h3 : d._position = c.data._position)
    (h4 : d.indentations = c.data.indentations) :
    (c.withData d)._vertices = c._vertices := by
  simp [_vertices, _indentation_levels, data_withData, h1, h2, h3, h4]

theorem indented_polygons_withData (c : Cube) (d : CubeData) (h1 : d._type = c.data._type)
    (h2 : d._size = c.data._size) (h3 : d._position = c.data._position)
    (h4 : d.indentations = c.data.indentations) :
    (c.withData d)._indented_polygons = c._indented_polygons := by
  simp [_indented_polygons, vertices_withData c d h1 h2 h3 h4, _indentation_levels,
    data_withData, h1, h4]

/-- The first call of `polygons()` on an `INDENTED` leaf that holds its indentations
returns the content of the cache it leaves behind, which is then valid; the other data
members are unchanged. -/
theorem polygons_indented_first (c : Cube) (ind : Fin 8 → Indentation)
    (hty : c.data._type = .INDENTED) (hind : c.data.indentations = some ind) :
    ∃ c1 : Cube, c.polygons = .ok (c1, List.ofFn c1.data._polygons_cache) ∧
      c1.data._valid_cache = true ∧ c1.data._type = .INDENTED ∧
      c1.data._size = c.data._size ∧ c1.data._position = c.data._position ∧
      c1.data.indentations = some ind := by
  cases hv : c.data._valid_cache with
  | true => exact ⟨c, polygons_leaf_valid c (Or.inr hty) hv, hv, hty, rfl, rfl, hind⟩
  | false =>
    obtain ⟨v, -, hP⟩ := indented_polygons_eq c ind hty hind
    refine ⟨c.withData { c.data with
        _polygons_cache := _indented_polygons_of v (fun i => (ind i).vec),
        _valid_cache := true }, ?_, ?_, ?_, ?_, ?_, ?_⟩
    · have := polygons_indented_invalid c hty hv _ hP
      rw [this, data_withData]
    all_goals simp [data_withData, hty, hind]

/-- C11: on an `INDENTED` leaf, after a first call of `polygons()`, a call of `set` on one
of the indentations (`set_x`, `set_y`, `set_z` are the calls of `set` with one value)
leaves the cache valid, so the next `polygons()` returns the triangles of the first
call; after `invalidate_cache()` the next `polygons()` returns the triangles that
`_indented_polygons` computes from the current magnitudes, on vertices whose
coordinates at the corner that was set are displaced by `size/8` times the new
magnitudes. -/
theorem stale_cache_contract (c : Cube) (ind : Fin 8 → Indentation)
    (hty : c.data._type = .INDENTED) (hind : c.data.indentations = some ind)
    (i : Fin 8) (x y z : Option Nat) :
    (∀ (j : Indentation) (m : Nat), j.set_x m = j.set (some m) none none ∧
      j.set_y m = j.set none (some m) none ∧ j.set_z m = j.set none none (some m)) ∧
    ∃ (c1 c2 c3 : Cube) (t1 : List Polygon) (v : Fin 8 → Vec3),
      c.polygons = .ok (c1, t1) ∧
      c1.update_indentation i (fun j => j.set x y z) = .ok c2 ∧
      c2.data.indentations = some (Function.update ind i ((ind i).set x y z)) ∧
      c2.polygons = .ok (c2, t1) ∧
      c2.invalidate_cache._vertices = .ok v ∧
      c2.invalidate_cache.polygons = .ok (c3, List.ofFn (_indented_polygons_of v
        (fun j => (Function.update ind i ((ind i).set x y z) j).vec))) ∧
      ((v i).x = c.data._position.x + c.data._size / 8 * (((ind i).set x y z)._x : ℚ) ∨
        (v i).x = c.data._position.x + c.data._size
          - c.data._size / 8 * (((ind i).set x y z)._x : ℚ)) ∧
      ((v i).y = c.data._position.y + c.data._size / 8 * (((ind i).set x y z)._y : ℚ) ∨
        (v i).y = c.data._position.y + c.data._size
          - c.data._size / 8 * (((ind i).set x y z)._y : ℚ)) ∧
      ((v i).z = c.data._position.z + c.data._size / 8 * (((ind i).set x y z)._z : ℚ) ∨
        (v i).z = c.data._position.z + c.data._size
          - c.data._size / 8 * (((ind i).set x y z)._z : ℚ)) := by
  refine ⟨fun j m => ⟨rfl, rfl, rfl⟩, ?_⟩
  obtain ⟨c1, h1, hv1, hty1, hs1, hp1, hind1⟩ := polygons_indented_first c ind hty hind
  obtain ⟨c2, hc2⟩ : ∃ c2, c2 = c1.withData { c1.data with
      indentations := some (Function.update ind i ((ind i).set x y z)) } := ⟨_, rfl⟩
  have hupd : c1.update_indentation i (fun j => j.set x y z) = .ok c2 := by
    rw [hc2]
    simp [Cube.update_indentation, hind1, value]
  have hty2 : c2.data._type = .INDENTED := by rw [hc2, data_withData]; exact hty1
  have hv2 : c2.data._valid_cache = true := by rw [hc2, data_withData]; exact hv1
  have hind2 : c2.data.indentations = some (Function.update ind i ((ind i).set x y z)) := by
    rw [hc2, data_withData]
  have hs2 : c2.data._size = c.data._size := by rw [hc2, data_withData]; exact hs1
  have hp2 : c2.data._position = c.data._position := by rw [hc2, data_withData]; exact hp1
  have hcache2 : c2.data._polygons_cache = c1.data._polygons_cache := by
    rw [hc2, data_withData]
  have hty4 : c2.invalidate_cache.data._type = .INDENTED := by
    simp [invalidate_cache, data_withData, hty2]
  have hind4 : c2.invalidate_cache.data.indentations
      = some (Function.update ind i ((ind i).set x y z)) := by
    simp [invalidate_cache, data_withData, hind2]
  have hs4 : c2.invalidate_cache.data._size = c.data._size := by
    simp [invalidate_cache, data_withData, hs2]
  have hp4 : c2.invalidate_cache.data._position = c.data._position := by
    simp [invalidate_cache, data_withData, hp2]
  have hv4 : c2.invalidate_cache.data._valid_cache = false := by
    simp [invalidate_cache, data_withData]
  obtain ⟨v, hv, hc⟩ := vertices_indented_coordinates _ _ hty4 hind4
  obtain ⟨v', hv', hP⟩ := indented_polygons_eq _ _ hty4 hind4
  have hvv : v' = v := by
    rw [hv] at hv'
    exact (Except.ok.inj hv').symm
  subst hvv
  have h3 := polygons_leaf_valid c2 (Or.inr hty2) hv2
  rw [hcache2] at h3
  have h5 := polygons_indented_invalid _ hty4 hv4 _ hP
  have hci := hc i
  rw [hs4, hp4] at hci
  exact ⟨c1, c2, _, _, v', h1, hupd, hind2, h3, hv, h5, by simpa using hci⟩

/-- Witness of C11: the cube with all magnitudes 0, whose corner 5 is then set to the
z magnitude 1. -/
theorem stale_cache_contract_witness :
    (ofIndentations indentZero 1 ⟨0, 0, 0⟩).data._type = .INDENTED ∧
    (ofIndentations indentZero 1 ⟨0, 0, 0⟩).data.indentations = some indentZero ∧
    ∃ (c1 c2 c3 : Cube) (t1 : List Polygon) (v : Fin 8 → Vec3),
      (ofIndentations indentZero 1 ⟨0, 0, 0⟩).polygons = .ok (c1, t1) ∧
      c1.update_indentation 5 (fun j => j.set none none (some 1)) = .ok c2 ∧
      c2.polygons = .ok (c2, t1) ∧
      c2.invalidate_cache._vertices = .ok v ∧
      c2.invalidate_cache.polygons = .ok (c3, List.ofFn (_indented_polygons_of v
        (fun j => (Function.update indentZero 5 ((indentZero 5).set none none (some 1)) j).vec))) := by
  obtain ⟨c1, c2, c3, t1, v, h1, h2, -, h3, h4, h5, -⟩ :=
    (stale_cache_contract (ofIndentations indentZero 1 ⟨0, 0, 0⟩) indentZero rfl rfl 5
      none none (some 1)).2
  exact ⟨rfl, rfl, c1, c2, c3, t1, v, h1, h2, h3, h4, h5⟩

/-! ## C12: polygons() as a depth-first concatenation -/

theorem pjoin_eight {β : Type} (ts : Fin 8 → List β) :
    pjoin ts 8 = ts 0 ++ ts 1 ++ ts 2 ++ ts 3 ++ ts 4 ++ ts 5 ++ ts 6 ++ ts 7 := by
  simp [pjoin]

/-- A `FULL` or `INDENTED` node writes the twelve triangles of `leafTriangles`. -/
theorem emit_polygons_leafTriangles (c : Cube)
    (hty : c.data._type = .FULL ∨ (c.data._type = .INDENTED ∧ c.data.indentations.isSome)) :
    c.leafTriangles.length = 12 ∧
    ∃ d : CubeData, ∀ (data : List Polygon) (p : Nat), p + 12 ≤ data.length →
      c._emit_polygons ⟨data, p⟩ = .ok (c.withData d, ⟨splice data p c.leafTriangles, p + 12⟩) := by
  by_cases hv : c.data._valid_cache = true
  · refine ⟨by simp [Cube.leafTriangles, hv], c.data, fun data p h => ?_⟩
    simp [_emit_polygons, hv, writeAll_eq _ _ _ h, Cube.leafTriangles]
  · rcases hty with hF | ⟨hI, hsome⟩
    · have hfull : ∃ cache, c._full_polygons = .ok cache := by
        simp [_full_polygons, _vertices, hF]
      obtain ⟨cache, hc⟩ := hfull
      have hl : c.leafTriangles = List.ofFn cache := by
        simp [Cube.leafTriangles, hv, Cube.ownTriangles, hF, hc]
      refine ⟨by rw [hl]; simp, { c.data with _polygons_cache := cache, _valid_cache := true },
        fun data p h => ?_⟩
      rw [hl]
      simp [_emit_polygons, hv, hF, hc, writeAll_eq _ _ _ h]
    · obtain ⟨ind, hind⟩ := Option.isSome_iff_exists.mp hsome
      have hind' : ∃ cache, c._indented_polygons = .ok cache := by
        simp [_indented_polygons, _vertices, _indentation_levels, hI, hind, value]
      obtain ⟨cache, hc⟩ := hind'
      have hl : c.leafTriangles = List.ofFn cache := by
        simp [Cube.leafTriangles, hv, Cube.ownTriangles, hI, hc]
      refine ⟨by rw [hl]; simp, { c.data with _polygons_cache := cache, _valid_cache := true },
        fun data p h => ?_⟩
      rw [hl]
      simp [_emit_polygons, hv, hI, hc, writeAll_eq _ _ _ h]

/-- The traversal of a well-formed tree writes the depth-first concatenation of what
its leaves yield under their caches. -/
theorem all_polygons_depthFirst (c : Cube) (hwf : c.WellFormed) :
    ∃ (n : Nat) (c' : Cube), c.leaves = .ok n ∧
      (c.depthFirst Cube.leafTriangles).length = n * 12 ∧
      ∀ (data : List Polygon) (p : Nat),
        p + (c.depthFirst Cube.leafTriangles).length ≤ data.length →
        c._all_polygons ⟨data, p⟩ = .ok (c', ⟨splice data p (c.depthFirst Cube.leafTriangles),
          p + (c.depthFirst Cube.leafTriangles).length⟩) := by
  induction c with
  | noOctants d =>
    obtain ⟨hno, hind⟩ := hwf
    cases hty : d._type with
    | EMPTY =>
      exact ⟨0, .noOctants d, by simp [leaves, hty], by simp [Cube.depthFirst, hty],
        fun data p _ => by simp [_all_polygons, hty, Cube.depthFirst, splice_nil]⟩
    | FULL =>
      obtain ⟨hlen, d', hd'⟩ := emit_polygons_leafTriangles (.noOctants d) (Or.inl hty)
      have hdf : (Cube.noOctants d).depthFirst Cube.leafTriangles
          = (Cube.noOctants d).leafTriangles := by simp [Cube.depthFirst, hty]
      rw [hdf, hlen]
      exact ⟨1, (Cube.noOctants d).withData d', by simp [leaves, hty], rfl,
        fun data p h => by simp [_all_polygons, hty, hd' data p h]⟩
    | INDENTED =>
      obtain ⟨hlen, d', hd'⟩ :=
        emit_polygons_leafTriangles (.noOctants d) (Or.inr ⟨hty, hind hty⟩)
      have hdf : (Cube.noOctants d).depthFirst Cube.leafTriangles
          = (Cube.noOctants d).leafTriangles := by simp [Cube.depthFirst, hty]
      rw [hdf, hlen]
      exact ⟨1, (Cube.noOctants d).withData d', by simp [leaves, hty], rfl,
        fun data p h => by simp [_all_polygons, hty, hd' data p h]⟩
    | OCTANTS => exact absurd hty hno
  | withOctants d o ih =>
    obtain ⟨hind, hoct⟩ := hwf
    cases hty : d._type with
    | EMPTY =>
      exact ⟨0, .withOctants d o, by simp [leaves, hty], by simp [Cube.depthFirst, hty],
        fun data p _ => by simp [_all_polygons, hty, Cube.depthFirst, splice_nil]⟩
    | FULL =>
      obtain ⟨hlen, d', hd'⟩ := emit_polygons_leafTriangles (.withOctants d o) (Or.inl hty)
      have hdf : (Cube.withOctants d o).depthFirst Cube.leafTriangles
          = (Cube.withOctants d o).leafTriangles := by simp [Cube.depthFirst, hty]
      rw [hdf, hlen]
      exact ⟨1, (Cube.withOctants d o).withData d', by simp [leaves, hty], rfl,
        fun data p h => by simp [_all_polygons, hty, hd' data p h]⟩
    | INDENTED =>
      obtain ⟨hlen, d', hd'⟩ :=
        emit_polygons_leafTriangles (.withOctants d o) (Or.inr ⟨hty, hind hty⟩)
      have hdf : (Cube.withOctants d o).depthFirst Cube.leafTriangles
          = (Cube.withOctants d o).leafTriangles := by simp [Cube.depthFirst, hty]
      rw [hdf, hlen]
      exact ⟨1, (Cube.withOctants d o).withData d', by simp [leaves, hty], rfl,
        fun data p h => by simp [_all_polygons, hty, hd' data p h]⟩
    | OCTANTS =>
      choose n c' hl hlen hrun using fun i => ih i (hoct hty i)
      have hdf : (Cube.withOctants d o).depthFirst Cube.leafTriangles
          = pjoin (fun i => (o i).depthFirst Cube.leafTriangles) 8 := by
        rw [pjoin_eight]
        simp [Cube.depthFirst, hty]
      rw [hdf]
      have hlenk := pjoin_length (fun i => (o i).depthFirst Cube.leafTriangles) n hlen
      refine ⟨psum n 8, .withOctants d c', ?_, hlenk 8, ?_⟩
      · obtain ⟨arr, s', he, -, hs'⟩ :=
          seq8_spec (fun k (i : Nat) => do
              let m ← leaves (o k)
              pure ((), i + m)) 0
            (fun k acc => acc = psum n k) (fun _ _ => True) rfl
            (fun i s hs => ⟨(), s + n i, by simp [hl i], trivial, by
              simp [psum, i.isLt, hs]⟩)
        simp only [leaves, hty]
        rw [he]
        simp [hs']
      · intro data p hfit
        obtain ⟨arr, s', he, hR, hs'⟩ :=
          seq8_spec (fun k b => _all_polygons (o k) b) (⟨data, p⟩ : PolyBuf)
            (fun k b => b = ⟨splice data p
                (pjoin (fun i => (o i).depthFirst Cube.leafTriangles) k),
              p + (pjoin (fun i => (o i).depthFirst Cube.leafTriangles) k).length⟩)
            (fun i a => a = c' i) (by simp [pjoin, splice_nil])
            (fun i s hs => by
              have hm := pjoin_length_mono
                (fun i => (o i).depthFirst Cube.leafTriangles) (i.val + 1) 8 (by omega)
              have hstep : pjoin (fun i => (o i).depthFirst Cube.leafTriangles) (i.val + 1)
                  = pjoin (fun i => (o i).depthFirst Cube.leafTriangles) i.val
                    ++ (o i).depthFirst Cube.leafTriangles := by
                simp [pjoin, i.isLt]
              rw [hstep, List.length_append] at hm
              refine ⟨c' i, ⟨splice data p
                  (pjoin (fun i => (o i).depthFirst Cube.leafTriangles) (i.val + 1)),
                p + (pjoin (fun i => (o i).depthFirst Cube.leafTriangles) (i.val + 1)).length⟩,
                ?_, rfl, rfl⟩
              subst hs
              have hsl := splice_length data p
                (pjoin (fun i => (o i).depthFirst Cube.leafTriangles) i.val) (by omega)
              show (o i)._all_polygons _ = _
              rw [hrun i _ _ (by rw [hsl]; omega),
                splice_splice data p _ _ (by omega), hstep]
              simp [Nat.add_assoc])
        have harr : arr = c' := funext hR
        subst harr
        simp only [_all_polygons, hty]
        simp [he, hs']

/-- `polygons()` on a well-formed tree returns the depth-first concatenation of what
its leaves yield under their caches. -/
theorem polygons_depthFirst (c : Cube) (hwf : c.WellFormed) :
    ∃ c' : Cube, c.polygons = .ok (c', c.depthFirst Cube.leafTriangles) := by
  obtain ⟨n, c', hl, hlen, hrun⟩ := all_polygons_depthFirst c hwf
  refine ⟨c', ?_⟩
  have key := hrun (List.replicate (n * 12) Polygon.zero) 0 (by simp [hlen])
  rw [splice_all _ _ (by simp [hlen])] at key
  simp [polygons, hl, key]

theorem vertices_zero_indented :
    (ofIndentations indentZero 1 ⟨0, 0, 0⟩)._vertices = .ok (cornerPositions 1 ⟨0, 0, 0⟩) := by
  simp only [_vertices, ofIndentations, freshData, Cube.data, _indentation_levels, value,
    Indentation.vec, MAX_INDENTATION, cornerPositions]
  simp [indentZero]

theorem staleCube_reached :
    ∃ (c1 : Cube) (t1 : List Polygon),
      (ofIndentations indentZero 1 ⟨0, 0, 0⟩).polygons = .ok (c1, t1) ∧
      c1.update_indentation 5 (fun j => j.set_z 1) = .ok staleCube := by
  have hP : (ofIndentations indentZero 1 ⟨0, 0, 0⟩)._indented_polygons
      = .ok (_indented_polygons_of (cornerPositions 1 ⟨0, 0, 0⟩)
          (fun i => (indentZero i).vec)) := by
    simp only [_indented_polygons, vertices_zero_indented]
    simp [ofIndentations, freshData, Cube.data, _indentation_levels, value]
  refine ⟨_, _,
    polygons_indented_invalid (ofIndentations indentZero 1 ⟨0, 0, 0⟩) rfl rfl _ hP, ?_⟩
  simp [Cube.update_indentation, ofIndentations, freshData, Cube.data, Cube.withData, value,
    staleCube]

/-- C12, as stated, fails: the `INDENTED` cube `staleCube` is the state reached by
`polygons()` on all magnitudes 0 followed by `set_z(1)` on corner 5; it is well formed,
and `polygons()` on it returns the twelve triangles of its cache, which are not the
triangulation of its own vertices (vertex 5 has moved). -/
theorem polygons_stale_not_own :
    (∃ (c1 : Cube) (t1 : List Polygon),
      (ofIndentations indentZero 1 ⟨0, 0, 0⟩).polygons = .ok (c1, t1) ∧
      c1.update_indentation 5 (fun j => j.set_z 1) = .ok staleCube) ∧
    staleCube.WellFormed ∧
    ∃ t : List Polygon, staleCube.polygons = .ok (staleCube, t) ∧
      t ≠ staleCube.depthFirst Cube.ownTriangles := by
  refine ⟨staleCube_reached, by simp [staleCube, Cube.WellFormed], _,
    polygons_leaf_valid staleCube (Or.inr rfl) rfl, ?_⟩
  obtain ⟨v, hv, hc⟩ := vertices_indented_coordinates staleCube _ rfl rfl
  obtain ⟨v', hv', hQ⟩ := indented_polygons_eq staleCube _ rfl rfl
  have hvv : v' = v := by
    rw [hv] at hv'
    exact (Except.ok.inj hv').symm
  subst hvv
  have hown : staleCube.depthFirst Cube.ownTriangles
      = List.ofFn (_indented_polygons_of v'
          (fun i => (Function.update indentZero 5 ((indentZero 5).set_z 1) i).vec)) := by
    have h1 : staleCube.depthFirst Cube.ownTriangles = staleCube.ownTriangles := by
      simp [staleCube, Cube.depthFirst]
    have h2 : staleCube.data._type ≠ .FULL := by simp [staleCube, Cube.data]
    rw [h1, Cube.ownTriangles, if_neg h2, hQ]
  rw [hown]
  intro heq
  have hfun := List.ofFn_injective heq
  have h10 := congrArg Vec3.z (congrFun (congrFun hfun 10) 2)
  have hl : (staleCube.data._polygons_cache 10 2).z = 1 := by
    show (cornerPositions 1 ⟨0, 0, 0⟩ 5).z = 1
    simp [cornerPositions]
  have hr : _indented_polygons_of v'
      (fun i => (Function.update indentZero 5 ((indentZero 5).set_z 1) i).vec) 10 2 = v' 5 := by
    rw [indented_polygons_of_natural]
    congr 1
  rw [hl, hr] at h10
  have hz := (hc 5).2.2
  simp [staleCube, Cube.data, indentZero, Indentation.set_z] at hz
  rcases hz with hz | hz <;> rw [hz] at h10 <;> norm_num at h10

/-- C12, amended: on a well-formed tree `polygons()` returns the depth-first
concatenation in child-index order in which an `EMPTY` node yields nothing, a `FULL` or
`INDENTED` node yields the twelve triangles of its cache when the cache is valid and the
triangulation of its own vertices otherwise, and an `OCTANTS` node yields the
`polygons()` of child 0 followed by those of child 1, ..., child 7. -/
theorem polygons_is_depth_first (c : Cube) (hwf : c.WellFormed) :
    (∃ c' : Cube, c.polygons = .ok (c', c.depthFirst Cube.leafTriangles)) ∧
    (c.data._type = .EMPTY → ∃ c' : Cube, c.polygons = .ok (c', [])) ∧
    (c.data._type = .FULL ∨ c.data._type = .INDENTED →
      ∃ c' : Cube, c.polygons = .ok (c', c.leafTriangles)) ∧
    (∀ (d : CubeData) (o : Fin 8 → Cube), c = .withOctants d o → d._type = .OCTANTS →
      ∃ (c' : Cube) (cs : Fin 8 → Cube) (ts : Fin 8 → List Polygon),
        (∀ i, (o i).polygons = .ok (cs i, ts i)) ∧
        c.polygons = .ok (c', ts 0 ++ ts 1 ++ ts 2 ++ ts 3 ++ ts 4 ++ ts 5 ++ ts 6 ++ ts 7)) := by
  obtain ⟨c', hc'⟩ := polygons_depthFirst c hwf
  refine ⟨⟨c', hc'⟩, ?_, ?_, ?_⟩
  · intro hty
    refine ⟨c', ?_⟩
    rw [hc']
    cases c <;> simp [Cube.data] at hty <;> simp [Cube.depthFirst, hty]
  · intro hty
    refine ⟨c', ?_⟩
    rw [hc']
    cases c <;> rcases hty with hty | hty <;> simp [Cube.data] at hty <;>
      simp [Cube.depthFirst, hty]
  · intro d o hc hty
    subst hc
    choose cs hcs using fun i => polygons_depthFirst (o i) (hwf.2 hty i)
    refine ⟨c', cs, fun i => (o i).depthFirst Cube.leafTriangles, hcs, ?_⟩
    rw [hc']
    simp [Cube.depthFirst, hty]

/-- Witness of C12: the tree `sampleTree`, whose caches are not valid. -/
theorem polygons_is_depth_first_witness :
    sampleTree.WellFormed ∧
    ∃ c' : Cube, sampleTree.polygons = .ok (c', sampleTree.depthFirst Cube.leafTriangles) :=
  ⟨sampleTree_wf, (polygons_is_depth_first sampleTree sampleTree_wf).1⟩

end Inexor
